import Mathlib

/-!
Verification model of the stream translator in `src/lib/openai.ts`.

The single exported function `translate` issues one streaming chat-completion
request, decodes the response as server-sent events, accumulates content
deltas, reports progress, strips markdown fences from the final buffer and
re-validates it as JSON.  This file embeds that function as a pure Lean
model: network and cancellation behaviour become explicit inputs
(`CallInputs`), JavaScript numbers are modelled as rationals, and the
JavaScript `JSON.parse` / `JSON.stringify(·, null, 2)` pair is modelled by an
executable JSON parser and 2-space pretty printer.
-/

namespace OpenAiTranslate

/-- JSON values as produced by `JSON.parse` (JS numbers modelled as ℚ;
duplicate object keys are collapsed at parse time, as in JS). -/
inductive Json where
  | null : Json
  | bool (b : Bool) : Json
  | num (q : ℚ) : Json
  | str (s : String) : Json
  | arr (elems : List Json) : Json
  | obj (fields : List (String × Json)) : Json

/-- JSON whitespace accepted between tokens by `JSON.parse`. -/
def isJsonWs (c : Char) : Bool :=
  c = ' ' || c = '\t' || c = '\n' || c = '\r'

/-- Drop leading JSON whitespace. -/
def skipWs : List Char → List Char
  | [] => []
  | c :: cs => if isJsonWs c then skipWs cs else c :: cs

/-- Value of a hexadecimal digit character, if any. -/
def hexVal (c : Char) : Option ℕ :=
  if '0' ≤ c ∧ c ≤ '9' then some (c.toNat - 48)
  else if 'a' ≤ c ∧ c ≤ 'f' then some (c.toNat - 87)
  else if 'A' ≤ c ∧ c ≤ 'F' then some (c.toNat - 55)
  else none

/-- Parse the body of a JSON string after the opening quote; `acc` holds the
characters read so far, in reverse.  Surrogate pairs in `\uXXXX` escapes are
combined; lone surrogates (representable in JS strings but not as Unicode
scalar values) become U+FFFD.  `fuel` bounds the number of steps; every step
consumes at least one input character, so callers pass `length + 1`. -/
def parseStringRest : ℕ → List Char → List Char → Except String (String × List Char)
  | 0, _, _ => .error "Unterminated string in JSON"
  | _ + 1, _, [] => .error "Unterminated string in JSON"
  | fuel + 1, acc, c :: rest =>
    if c = '"' then .ok (String.mk acc.reverse, rest)
    else if c = '\\' then
      match rest with
      | [] => .error "Unterminated escape in JSON string"
      | '"' :: r => parseStringRest fuel ('"' :: acc) r
      | '\\' :: r => parseStringRest fuel ('\\' :: acc) r
      | '/' :: r => parseStringRest fuel ('/' :: acc) r
      | 'b' :: r => parseStringRest fuel ('\x08' :: acc) r
      | 'f' :: r => parseStringRest fuel ('\x0c' :: acc) r
      | 'n' :: r => parseStringRest fuel ('\n' :: acc) r
      | 'r' :: r => parseStringRest fuel ('\r' :: acc) r
      | 't' :: r => parseStringRest fuel ('\t' :: acc) r
      | 'u' :: h1 :: h2 :: h3 :: h4 :: r =>
        match hexVal h1, hexVal h2, hexVal h3, hexVal h4 with
        | some a, some b, some c1, some d =>
          let code := 4096 * a + 256 * b + 16 * c1 + d
          if 0xD800 ≤ code ∧ code ≤ 0xDBFF then
            match r with
            | '\\' :: 'u' :: g1 :: g2 :: g3 :: g4 :: r2 =>
              match hexVal g1, hexVal g2, hexVal g3, hexVal g4 with
              | some a2, some b2, some c2, some d2 =>
                let code2 := 4096 * a2 + 256 * b2 + 16 * c2 + d2
                if 0xDC00 ≤ code2 ∧ code2 ≤ 0xDFFF then
                  parseStringRest fuel
                    (Char.ofNat (0x10000 + (code - 0xD800) * 1024 + (code2 - 0xDC00)) :: acc) r2
                else parseStringRest fuel ('�' :: acc) r
              | _, _, _, _ => parseStringRest fuel ('�' :: acc) r
            | _ => parseStringRest fuel ('�' :: acc) r
          else if 0xDC00 ≤ code ∧ code ≤ 0xDFFF then
            parseStringRest fuel ('�' :: acc) r
          else
            parseStringRest fuel (Char.ofNat code :: acc) r
        | _, _, _, _ => .error "Bad Unicode escape in JSON string"
      | _ :: _ => .error "Bad escape in JSON string"
    else if c.toNat < 32 then .error "Bad control character in JSON string"
    else parseStringRest fuel (c :: acc) rest

/-- Numeric value of a decimal digit character. -/
def digitVal (c : Char) : ℕ := c.toNat - 48

/-- Most-significant-digit-first evaluation of a list of digit characters. -/
def digitsToNat (ds : List Char) : ℕ :=
  ds.foldl (fun a c => 10 * a + digitVal c) 0

/-- Assemble a JSON number from its parsed pieces: sign, integer digits,
fraction digits and a (signed) decimal exponent split into its positive and
negative parts. -/
def mkNumber (neg : Bool) (ids fds : List Char) (epos eneg : ℕ) : ℚ :=
  let base : ℕ := digitsToNat ids * 10 ^ fds.length + digitsToNat fds
  let zn : ℤ := (if neg then -(base : ℤ) else (base : ℤ)) * 10 ^ epos
  (zn : ℚ) / ((10 ^ (fds.length + eneg) : ℕ) : ℚ)

/-- Parse the optional exponent part of a JSON number (after `e`/`E`). -/
def parseExpPart (neg : Bool) (ids fds : List Char) (cs : List Char) :
    Except String (ℚ × List Char) :=
  let sgn : Bool × List Char :=
    match cs with
    | '+' :: t => (false, t)
    | '-' :: t => (true, t)
    | _ => (false, cs)
  let sp := sgn.2.span (fun c => c.isDigit)
  if sp.1.isEmpty then .error "Expected digit in JSON exponent"
  else
    let ev := digitsToNat sp.1
    if sgn.1 then .ok (mkNumber neg ids fds 0 ev, sp.2)
    else .ok (mkNumber neg ids fds ev 0, sp.2)

/-- Parse the optional fraction and exponent of a JSON number. -/
def parseNumTail (neg : Bool) (ids fds : List Char) (cs : List Char) :
    Except String (ℚ × List Char) :=
  match cs with
  | c :: t =>
    if c = 'e' ∨ c = 'E' then parseExpPart neg ids fds t
    else .ok (mkNumber neg ids fds 0 0, c :: t)
  | [] => .ok (mkNumber neg ids fds 0 0, [])

/-- Parse the digits of a JSON number after the optional minus sign. -/
def parseNumberCore (neg : Bool) (cs : List Char) : Except String (ℚ × List Char) :=
  let sp := cs.span (fun c => c.isDigit)
  if sp.1.isEmpty then .error "Expected digit in JSON number"
  else if sp.1.head? = some '0' ∧ 2 ≤ sp.1.length then
    .error "Leading zero in JSON number"
  else
    match sp.2 with
    | c :: t =>
      if c = '.' then
        let fp := t.span (fun x => x.isDigit)
        if fp.1.isEmpty then .error "Expected digit after decimal point in JSON number"
        else parseNumTail neg sp.1 fp.1 fp.2
      else parseNumTail neg sp.1 [] (c :: t)
    | [] => parseNumTail neg sp.1 [] []

/-- Parse a JSON number starting at `cs` (first char is `-` or a digit). -/
def parseNumber (cs : List Char) : Except String (ℚ × List Char) :=
  match cs with
  | c :: t => if c = '-' then parseNumberCore true t else parseNumberCore false (c :: t)
  | [] => parseNumberCore false []

/-- Record a parsed object member, JS-style: a repeated key overwrites the
earlier value in place, a fresh key is appended. -/
def insertField (fs : List (String × Json)) (k : String) (v : Json) :
    List (String × Json) :=
  if fs.any (fun p => p.1 = k) then
    fs.map (fun p => if p.1 = k then (k, v) else p)
  else fs ++ [(k, v)]

/-- Consume the exact characters `pat` from the front of `cs`. -/
def expectChars (pat : List Char) (cs : List Char) : Option (List Char) :=
  match pat, cs with
  | [], rest => some rest
  | p :: ps, c :: rest => if c = p then expectChars ps rest else none
  | _ :: _, [] => none

/-- Lift an element-list result to an array value. -/
def arrResult : Except String (List Json × List Char) → Except String (Json × List Char)
  | .ok (xs, r) => .ok (.arr xs, r)
  | .error e => .error e

/-- Lift a member-list result to an object value. -/
def objResult : Except String (List (String × Json) × List Char) →
    Except String (Json × List Char)
  | .ok (fs, r) => .ok (.obj fs, r)
  | .error e => .error e

mutual

/-- Parse one JSON value.  `fuel` bounds the recursion depth; the top-level
entry point supplies more fuel than any input can consume. -/
def parseValue : ℕ → List Char → Except String (Json × List Char)
  | 0, _ => .error "JSON value too deeply nested"
  | fuel + 1, cs =>
    match skipWs cs with
    | [] => .error "Unexpected end of JSON input"
    | c :: rest =>
      if c = 'n' then
        match expectChars ['u', 'l', 'l'] rest with
        | some r => .ok (.null, r)
        | none => .error "Invalid literal in JSON"
      else if c = 't' then
        match expectChars ['r', 'u', 'e'] rest with
        | some r => .ok (.bool true, r)
        | none => .error "Invalid literal in JSON"
      else if c = 'f' then
        match expectChars ['a', 'l', 's', 'e'] rest with
        | some r => .ok (.bool false, r)
        | none => .error "Invalid literal in JSON"
      else if c = '"' then
        match parseStringRest (rest.length + 1) [] rest with
        | .ok (s, r) => .ok (.str s, r)
        | .error e => .error e
      else if c = '[' then
        match skipWs rest with
        | [] => arrResult (parseElements fuel [] rest)
        | c1 :: r1 =>
          if c1 = ']' then .ok (.arr [], r1)
          else arrResult (parseElements fuel [] rest)
      else if c = '\x7b' then
        match skipWs rest with
        | [] => objResult (parseMembers fuel [] rest)
        | c1 :: r1 =>
          if c1 = '\x7d' then .ok (.obj [], r1)
          else objResult (parseMembers fuel [] rest)
      else if c = '-' ∨ c.isDigit then
        match parseNumber (c :: rest) with
        | .ok (q, r) => .ok (.num q, r)
        | .error e => .error e
      else .error ("Unexpected token in JSON: " ++ String.mk [c])

/-- Parse the elements of a non-empty JSON array, accumulating into `acc`. -/
def parseElements : ℕ → List Json → List Char → Except String (List Json × List Char)
  | 0, _, _ => .error "JSON value too deeply nested"
  | fuel + 1, acc, cs =>
    match parseValue fuel cs with
    | .error e => .error e
    | .ok (v, rest) =>
      match skipWs rest with
      | [] => .error "Expected comma or closing bracket in JSON array"
      | c1 :: r1 =>
        if c1 = ',' then parseElements fuel (acc ++ [v]) r1
        else if c1 = ']' then .ok (acc ++ [v], r1)
        else .error "Expected comma or closing bracket in JSON array"

/-- Parse the members of a non-empty JSON object, accumulating into `acc`. -/
def parseMembers : ℕ → List (String × Json) → List Char →
    Except String (List (String × Json) × List Char)
  | 0, _, _ => .error "JSON value too deeply nested"
  | fuel + 1, acc, cs =>
    match skipWs cs with
    | [] => .error "Expected string key in JSON object"
    | c0 :: rest =>
      if c0 = '"' then
        match parseStringRest (rest.length + 1) [] rest with
        | .error e => .error e
        | .ok (k, rest1) =>
          match skipWs rest1 with
          | [] => .error "Expected colon in JSON object"
          | c1 :: rest2 =>
            if c1 = ':' then
              match parseValue fuel rest2 with
              | .error e => .error e
              | .ok (v, rest3) =>
                match skipWs rest3 with
                | [] => .error "Expected comma or closing brace in JSON object"
                | c2 :: r =>
                  if c2 = ',' then parseMembers fuel (insertField acc k v) r
                  else if c2 = '\x7d' then .ok (insertField acc k v, r)
                  else .error "Expected comma or closing brace in JSON object"
            else .error "Expected colon in JSON object"
      else .error "Expected string key in JSON object"

end

/-- Model of JavaScript `JSON.parse`: parse one value, then require only
trailing whitespace. -/
def parseJson (s : String) : Except String Json :=
  match parseValue (s.length + 1) s.data with
  | .error e => .error e
  | .ok (v, rest) =>
    match skipWs rest with
    | [] => .ok v
    | c :: _ => .error ("Unexpected trailing characters in JSON: " ++ String.mk [c])

example : parseJson ("\x7b\"a\":\"b\"\x7d") = .ok (.obj [("a", .str "b")]) := rfl

example : parseJson (" [ null , true, \"x\\n\" ] ") =
    .ok (.arr [.null, .bool true, .str "x\n"]) := rfl

example : parseJson ("\x7bnot json\x7d") =
    .error "Expected string key in JSON object" := rfl

example : parseJson ("01") = .error "Leading zero in JSON number" := rfl

/-! ### The pretty printer: `JSON.stringify(v, null, 2)` -/

/-- Number of times `p` (≥ 2) divides `n` (≥ 1). -/
def cf (p n : ℕ) : ℕ :=
  if h : 2 ≤ p ∧ 1 ≤ n ∧ p ∣ n then cf p (n / p) + 1 else 0
termination_by n
decreasing_by
  exact Nat.div_lt_self (by omega) (by omega)

/-- Decimal digit characters of `n`, most significant first (`"0"` for zero). -/
def natDigits (n : ℕ) : List Char :=
  if n = 0 then ['0']
  else (Nat.digits 10 n).reverse.map (fun d => Char.ofNat (48 + d))

/-- Left-pad a digit list with `'0'` to length `e`. -/
def padTo (e : ℕ) (l : List Char) : List Char :=
  List.replicate (e - l.length) '0' ++ l

/-- Decimal notation for a rational whose denominator divides a power of ten
(the only numbers `JSON.parse` can produce); matches the plain-decimal
rendering JavaScript uses for such numbers in the common range. -/
def numChars (q : ℚ) : List Char :=
  let e := max (cf 2 q.den) (cf 5 q.den)
  let n : ℤ := (q * (10 : ℚ) ^ e).num
  let sgn : List Char := if n < 0 then ['-'] else []
  if e = 0 then sgn ++ natDigits n.natAbs
  else sgn ++ natDigits (n.natAbs / 10 ^ e) ++ '.' :: padTo e (natDigits (n.natAbs % 10 ^ e))

/-- Lowercase hexadecimal digit character. -/
def hexDigitCh (n : ℕ) : Char :=
  Char.ofNat (if n < 10 then 48 + n else 87 + n)

/-- Escaping of one character inside a JSON string literal, as
`JSON.stringify` does it: quote, backslash, the short control escapes, and
`\u00XX` for the remaining control characters. -/
def escapeChar (c : Char) : List Char :=
  if c = '"' then ['\\', '"']
  else if c = '\\' then ['\\', '\\']
  else if c = '\x08' then ['\\', 'b']
  else if c = '\t' then ['\\', 't']
  else if c = '\n' then ['\\', 'n']
  else if c = '\x0c' then ['\\', 'f']
  else if c = '\r' then ['\\', 'r']
  else if c.toNat < 32 then
    ['\\', 'u', '0', '0', hexDigitCh (c.toNat / 16), hexDigitCh (c.toNat % 16)]
  else [c]

/-- Characters of the escaped body of a JSON string literal. -/
def escList (l : List Char) : List Char := (l.map escapeChar).flatten

/-- A quoted JSON string literal. -/
def quoteString (s : String) : List Char := '"' :: escList s.data ++ ['"']

/-- Indentation for nesting depth `d` under a 2-space gap. -/
def mkIndent (d : ℕ) : List Char := List.replicate (2 * d) ' '

mutual

/-- Characters of `JSON.stringify(v, null, 2)` at nesting depth `d`. -/
def printVal : ℕ → Json → List Char
  | _, .null => ['n', 'u', 'l', 'l']
  | _, .bool true => ['t', 'r', 'u', 'e']
  | _, .bool false => ['f', 'a', 'l', 's', 'e']
  | _, .num q => numChars q
  | _, .str s => quoteString s
  | _, .arr [] => ['[', ']']
  | d, .arr (x :: xs) =>
    '[' :: '\n' :: mkIndent (d + 1) ++ printElemsP (d + 1) x xs ++
      '\n' :: mkIndent d ++ [']']
  | _, .obj [] => ['\x7b', '\x7d']
  | d, .obj (f :: fs) =>
    '\x7b' :: '\n' :: mkIndent (d + 1) ++ printFieldsP (d + 1) f fs ++
      '\n' :: mkIndent d ++ ['\x7d']
termination_by d v => sizeOf v

/-- Comma-newline separated array elements at depth `d`. -/
def printElemsP : ℕ → Json → List Json → List Char
  | d, x, [] => printVal d x
  | d, x, y :: ys => printVal d x ++ ',' :: '\n' :: mkIndent d ++ printElemsP d y ys
termination_by d x xs => sizeOf x + sizeOf xs

/-- Comma-newline separated object members at depth `d`. -/
def printFieldsP : ℕ → (String × Json) → List (String × Json) → List Char
  | d, (k, w), [] => quoteString k ++ ':' :: ' ' :: printVal d w
  | d, (k, w), g :: gs =>
    quoteString k ++ ':' :: ' ' :: printVal d w ++
      ',' :: '\n' :: mkIndent d ++ printFieldsP d g gs
termination_by d f fs => sizeOf f + sizeOf fs

end

/-- Model of `JSON.stringify(v, null, 2)`. -/
def stringify (v : Json) : String := String.mk (printVal 0 v)

/-! ### JavaScript value coercions used by the delta extraction -/

/-- First binding of `key`, if any (parser output never has duplicates). -/
def jsLookup : List (String × Json) → String → Option Json
  | [], _ => none
  | (k, v) :: t, key => if k = key then some v else jsLookup t key

mutual

/-- JavaScript `String(v)` coercion of a parsed JSON value. -/
def jsToString : Json → String
  | .null => "null"
  | .bool true => "true"
  | .bool false => "false"
  | .num q => String.mk (numChars q)
  | .str s => s
  | .arr xs => jsToStringElems xs
  | .obj _ => "[object Object]"
termination_by v => sizeOf v

/-- `Array.prototype.toString`: elements joined with commas. -/
def jsToStringElems : List Json → String
  | [] => ""
  | [x] => jsElemStr x
  | x :: y :: t => jsElemStr x ++ "," ++ jsToStringElems (y :: t)
termination_by xs => sizeOf xs

/-- One joined element: `null` renders empty inside a join. -/
def jsElemStr : Json → String
  | .null => ""
  | v => jsToString v
termination_by v => 1 + sizeOf v

end

/-- JavaScript property read `v.key` on a parsed JSON value: throws
(`TypeError`) on `null`, yields `undefined` (`none`) on non-objects. -/
def getProp (v : Json) (key : String) : Except Unit (Option Json) :=
  match v with
  | .null => .error ()
  | .obj fs => .ok (jsLookup fs key)
  | _ => .ok none

/-- JavaScript index read `x[0]` where `x` may be `undefined` (`none`):
throws on `undefined`/`null`, indexes arrays and strings, reads key `"0"`
from objects, yields `undefined` otherwise. -/
def getIndex0 : Option Json → Except Unit (Option Json)
  | none => .error ()
  | some .null => .error ()
  | some (.arr xs) => .ok xs.head?
  | some (.obj fs) => .ok (jsLookup fs "0")
  | some (.str s) => .ok (s.data.head?.map (fun c => .str (String.mk [c])))
  | some _ => .ok none

/-- Optional chaining `x?.key`: short-circuits on nullish. -/
def optProp (o : Option Json) (key : String) : Option Json :=
  match o with
  | none => none
  | some .null => none
  | some (.obj fs) => jsLookup fs key
  | some _ => none

/-- `x || ''` followed by string coercion under `+=`. -/
def jsOrEmpty : Option Json → String
  | none => ""
  | some .null => ""
  | some (.bool false) => ""
  | some (.bool true) => "true"
  | some (.num q) => if q = 0 then "" else String.mk (numChars q)
  | some (.str s) => s
  | some (.arr xs) => jsToString (.arr xs)
  | some (.obj fs) => jsToString (.obj fs)

/-- The delta text `parsedData.choices[0]?.delta?.content || ''`; an
exception (`TypeError`) anywhere in the chain is signalled with `.error`. -/
def extractDelta (v : Json) : Except Unit String :=
  match getProp v "choices" with
  | .error () => .error ()
  | .ok c =>
    match getIndex0 c with
    | .error () => .error ()
    | .ok o => .ok (jsOrEmpty (optProp (optProp o "delta") "content"))

/-! ### Fragment processing: SSE line framing and delta accumulation -/

/-- JavaScript `chunk.split('\n')`. -/
def splitLinesCh : List Char → List (List Char)
  | [] => [[]]
  | c :: rest =>
    if c = '\n' then [] :: splitLinesCh rest
    else
      match splitLinesCh rest with
      | [] => [[c]]
      | l :: ls => (c :: l) :: ls

/-- The terminal sentinel after the `data: ` marker. -/
def doneChars : List Char := ['[', 'D', 'O', 'N', 'E', ']']

/-- The contribution of one decoded line to the accumulated content: lines
without the `data: ` marker contribute nothing; `[DONE]` contributes
nothing; a JSON parse failure or a `TypeError` during extraction is caught
(the `continue` in the loop) and contributes nothing. -/
def processLineCh (line : List Char) : List Char :=
  match line with
  | 'd' :: 'a' :: 't' :: 'a' :: ':' :: ' ' :: jsonLine =>
    if jsonLine = doneChars then []
    else
      match parseJson (String.mk jsonLine) with
      | .error _ => []
      | .ok v =>
        match extractDelta v with
        | .error () => []
        | .ok s => s.data
  | _ => []

/-- Content extracted from one decoded fragment: split into lines, extract
every line's delta, concatenate. -/
def processChunk (s : String) : String :=
  String.mk (((splitLinesCh s.data).map processLineCh).flatten)

/-- The full accumulated buffer after a list of fragments. -/
def accumContent (frags : List String) : String :=
  frags.foldl (fun acc f => acc ++ processChunk f) ""

/-! ### `cleanJsonString`: markdown fence stripping and trimming -/

/-- One left-to-right pass of `str.replace(/\x60\x60\x60(json)?\n/g, '')`. -/
def stripFences : List Char → List Char
  | '\x60' :: '\x60' :: '\x60' :: 'j' :: 's' :: 'o' :: 'n' :: '\n' :: rest => stripFences rest
  | '\x60' :: '\x60' :: '\x60' :: '\n' :: rest => stripFences rest
  | c :: rest => c :: stripFences rest
  | [] => []

/-- `str.replace(/\x60\x60\x60$/g, '')`: remove one trailing fence. -/
def stripTrailingFence (l : List Char) : List Char :=
  match l.reverse with
  | '\x60' :: '\x60' :: '\x60' :: rest => rest.reverse
  | _ => l

/-- White space removed by JavaScript `String.prototype.trim`. -/
def isJsTrimWs (c : Char) : Bool :=
  c = ' ' || c = '\t' || c = '\n' || c = '\r' || c = '\x0b' || c = '\x0c' ||
    c = '\xa0' || c = '\u2028' || c = '\u2029' || c = '\ufeff'

/-- JavaScript `l.trim()` on a character list. -/
def jsTrim (l : List Char) : List Char :=
  ((l.dropWhile isJsTrimWs).reverse.dropWhile isJsTrimWs).reverse

/-- The helper `cleanJsonString` from the source: strip markdown code-fence
markers, then trim surrounding whitespace. -/
def cleanJsonString (s : String) : String :=
  String.mk (jsTrim (stripTrailingFence (stripFences s.data)))

/-! ### The stream loop and the call model -/

/-- Loop state of the `while (true)` read loop, plus the observable traces
of `onProgress` and `onStream` callbacks. -/
structure StreamAcc where
  fullContent : String
  tokenCount : ℚ
  progressTrace : List ℤ
  chunkTrace : List String

/-- One iteration of the read loop for a decoded fragment: append the
extracted content, bump `tokenCount` by a quarter of its length, report
`Math.min(Math.round(tokenCount / estimatedTokens * 100), 100)` and the
full buffer. -/
def stepFragment (estimatedTokens : ℚ) (acc : StreamAcc) (frag : String) : StreamAcc :=
  let content := processChunk frag
  let full := acc.fullContent ++ content
  let tk := acc.tokenCount + (content.length : ℚ) / 4
  let progress : ℤ := min (round (tk / estimatedTokens * 100)) 100
  ⟨full, tk, acc.progressTrace ++ [progress], acc.chunkTrace ++ [full]⟩

/-- The whole read loop over the delivered fragments. -/
def runStream (estimatedTokens : ℚ) (frags : List String) : StreamAcc :=
  frags.foldl (stepFragment estimatedTokens) ⟨"", 0, [], []⟩

/-- A JavaScript throwable reaching a `catch`: the abort `DOMException`, an
`Error` instance carrying its message, or a non-`Error` value. -/
inductive Thrown where
  | abortError : Thrown
  | errorObj (msg : String) : Thrown
  | nonError (desc : String) : Thrown

/-- Behaviour of the response body stream: the fragments delivered as
decoded text, then either normal completion or a throw from `read()`
(e.g. the abort `DOMException` when the signal fires mid-stream). -/
structure StreamBody where
  fragments : List String
  endThrow : Option Thrown

/-- Behaviour of the awaited `fetch`: either a throw (abort before/while in
flight, or a network error) or a response with a status and an optional
readable body. -/
inductive FetchOutcome where
  | throws (t : Thrown) : FetchOutcome
  | response (status : ℕ) (body : Option StreamBody) : FetchOutcome

/-- One call's environment: configuration values, the network behaviour,
and the value of `signal?.aborted` at its two observation points (inside
the final-parse catch and inside the outer catch). -/
structure CallInputs where
  apiUrl : Option String
  apiKey : Option String
  fetchOutcome : FetchOutcome
  abortedAtParse : Bool
  abortedAtCatch : Bool

/-- How the returned promise settles. -/
inductive TranslateResult where
  | resolved (s : String) : TranslateResult
  | rejected (msg : String) : TranslateResult

/-- Settlement plus the observable callback traces. -/
structure CallOutcome where
  result : TranslateResult
  progressTrace : List ℤ
  chunkTrace : List String

/-- JavaScript truthiness test on an optional environment string (`!API_KEY`
is true for both a missing and an empty value). -/
def jsFalsy : Option String → Bool
  | none => true
  | some s => s = ""

/-- Decimal rendering of a status code, as in the template literal. -/
def natToStr (n : ℕ) : String := String.mk (natDigits n)

/-- Result of the `try` block body. -/
structure TryOut where
  out : Except Thrown String
  progressTrace : List ℤ
  chunkTrace : List String

/-- The body of the `try` block: await `fetch`, check the status, read and
process the stream, clean the buffer, re-validate it as JSON.  The early
`return ''` at a parse failure with an aborted signal is a normal return
(`.ok ""`), not a throw. -/
def tryBody (text : String) (inp : CallInputs) : TryOut :=
  match inp.fetchOutcome with
  | .throws t => ⟨.error t, [], []⟩
  | .response status body =>
    if 200 ≤ status ∧ status < 300 then
      match body with
      | none => ⟨.error (.errorObj "Stream not supported"), [], []⟩
      | some sb =>
        let acc := runStream ((text.length : ℚ) / 4) sb.fragments
        match sb.endThrow with
        | some t => ⟨.error t, acc.progressTrace, acc.chunkTrace⟩
        | none =>
          match parseJson (cleanJsonString acc.fullContent) with
          | .ok v => ⟨.ok (stringify v), acc.progressTrace, acc.chunkTrace⟩
          | .error e =>
            if inp.abortedAtParse then ⟨.ok "", acc.progressTrace, acc.chunkTrace⟩
            else ⟨.error (.errorObj ("Invalid translation result format: " ++ e)),
                  acc.progressTrace, acc.chunkTrace⟩
    else if status = 401 then ⟨.error (.errorObj "Invalid or expired API Key"), [], []⟩
    else if status = 429 then ⟨.error (.errorObj "API call limit reached"), [], []⟩
    else ⟨.error (.errorObj ("API request failed with status " ++ natToStr status)), [], []⟩

/-- The whole `translate` call: configuration checks (outside the `try`),
then the `try` body, then the `catch` clause, which resolves to `''` when
the signal is aborted or the error is the abort `DOMException`, rethrows
`Error` instances, and normalizes other throwables. -/
def translateModel (text : String) (inp : CallInputs) : CallOutcome :=
  if jsFalsy inp.apiKey then ⟨.rejected "API_KEY not configured", [], []⟩
  else if jsFalsy inp.apiUrl then ⟨.rejected "API_URL not configured", [], []⟩
  else
    let t := tryBody text inp
    match t.out with
    | .ok s => ⟨.resolved s, t.progressTrace, t.chunkTrace⟩
    | .error .abortError => ⟨.resolved "", t.progressTrace, t.chunkTrace⟩
    | .error (.errorObj m) =>
      if inp.abortedAtCatch then ⟨.resolved "", t.progressTrace, t.chunkTrace⟩
      else ⟨.rejected m, t.progressTrace, t.chunkTrace⟩
    | .error (.nonError _) =>
      if inp.abortedAtCatch then ⟨.resolved "", t.progressTrace, t.chunkTrace⟩
      else ⟨.rejected "Unknown error occurred", t.progressTrace, t.chunkTrace⟩

/-! ### Helpers for stating the progress claims -/

/-- Lengths of the content extracted from each fragment. -/
def contentLens (frags : List String) : List ℕ :=
  frags.map (fun f => (processChunk f).length)

/-- Running totals, starting from `s`. -/
def cumSumsFrom (s : ℕ) : List ℕ → List ℕ
  | [] => []
  | n :: t => (s + n) :: cumSumsFrom (s + n) t

/-- Running totals of a list. -/
def cumSums (l : List ℕ) : List ℕ := cumSumsFrom 0 l

/-- The progress figure the loop reports once the total extracted length
is `k`. -/
def progOf (estimatedTokens : ℚ) (k : ℕ) : ℤ :=
  min (round ((k : ℚ) / 4 / estimatedTokens * 100)) 100

example :
    cleanJsonString ("\x60\x60\x60json\n\x7b\"a\":\"b\"\x7d\n\x60\x60\x60") =
      ("\x7b\"a\":\"b\"\x7d") := rfl

example :
    processChunk ("data: \x7b\"choices\":[\x7b\"delta\":\x7b\"content\":\"ok\"\x7d\x7d]\x7d") =
      ("ok") := rfl

example :
    accumContent
      ["data: \x7bnot json\x7d\ndata: \x7b\"choices\":[\x7b\"delta\":\x7b\"content\":\"ok\"\x7d\x7d]\x7d\ndata: [DONE]"] = ("ok") := rfl

/-! ## Claim theorems -/

/-- C4: with configuration present and no cancellation, a non-2xx HTTP
status rejects the call: 401 with the authentication message, 429 with the
rate-limit message, and any other status with the generic request-failure
message carrying the decimal status code. -/
theorem translate_http_error_rejects (text : String) (inp : CallInputs) (st : ℕ)
    (body : Option StreamBody)
    (hkey : jsFalsy inp.apiKey = false) (hurl : jsFalsy inp.apiUrl = false)
    (hf : inp.fetchOutcome = .response st body)
    (hbad : ¬ (200 ≤ st ∧ st < 300))
    (hnc : inp.abortedAtCatch = false) :
    (translateModel text inp).result =
      .rejected (if st = 401 then "Invalid or expired API Key"
                 else if st = 429 then "API call limit reached"
                 else "API request failed with status " ++ natToStr st) := by
  by_cases h401 : st = 401
  · simp [translateModel, tryBody, hf, hkey, hurl, hnc, if_neg hbad, h401]
  · by_cases h429 : st = 429
    · simp [translateModel, tryBody, hf, hkey, hurl, hnc, if_neg hbad, h401, h429]
    · simp [translateModel, tryBody, hf, hkey, hurl, hnc, if_neg hbad, h401, h429]

/-- C4 witness: a 500 response with the abort signal clear is rejected with
the generic message carrying the code. -/
theorem translate_http_error_rejects_witness :
    (translateModel "x"
        ⟨some "u", some "k", .response 500 none, false, false⟩).result =
      .rejected ("API request failed with status " ++ natToStr 500) := by
  have h := translate_http_error_rejects "x"
    ⟨some "u", some "k", .response 500 none, false, false⟩ 500 none
    rfl rfl rfl (by decide) rfl
  simpa using h

/-- The loop's accumulated buffer is the concatenation of the per-fragment
extracted content, independently of the progress bookkeeping. -/
theorem runStream_fullContent (et : ℚ) (frags : List String) :
    (runStream et frags).fullContent = accumContent frags := by
  have key : ∀ (l : List String) (a : StreamAcc),
      (List.foldl (stepFragment et) a l).fullContent
        = List.foldl (fun s f => s ++ processChunk f) a.fullContent l := by
    intro l
    induction l with
    | nil => intro a; rfl
    | cons f t ih => intro a; rw [List.foldl_cons, List.foldl_cons, ih]; rfl
  exact key frags ⟨"", 0, [], []⟩

/-- C2: with configuration present, if the cancellation signal fires before
the request completes — the fetch rejects with the abort exception, or a
mid-stream read does — the call resolves to the empty string (in particular
it never rejects). -/
theorem cancellation_resolves_empty (text : String) (inp : CallInputs)
    (hkey : jsFalsy inp.apiKey = false) (hurl : jsFalsy inp.apiUrl = false)
    (habort : inp.abortedAtCatch = true)
    (hfire : inp.fetchOutcome = .throws .abortError ∨
      ∃ st frags, inp.fetchOutcome = .response st (some ⟨frags, some .abortError⟩)) :
    (translateModel text inp).result = .resolved "" := by
  rcases hfire with h | ⟨st, frags, h⟩
  · simp [translateModel, tryBody, h, hkey, hurl]
  · by_cases hst : 200 ≤ st ∧ st < 300
    · simp [translateModel, tryBody, h, hkey, hurl, hst]
    · by_cases h401 : st = 401
      · simp [translateModel, tryBody, h, hkey, hurl, hst, h401, habort]
      · by_cases h429 : st = 429
        · simp [translateModel, tryBody, h, hkey, hurl, hst, h401, h429, habort]
        · simp [translateModel, tryBody, h, hkey, hurl, hst, h401, h429, habort]

/-- C2 witness: an aborted fetch with configuration present resolves to the
empty string. -/
theorem cancellation_resolves_empty_witness :
    (translateModel "x"
        ⟨some "u", some "k", .throws .abortError, false, true⟩).result =
      .resolved "" :=
  cancellation_resolves_empty "x" ⟨some "u", some "k", .throws .abortError, false, true⟩
    rfl rfl rfl (Or.inl rfl)

/-- C3: with configuration present, a completed stream whose cleaned buffer
fails to parse, with cancellation never requested, rejects with the
invalid-result-format message carrying the parser's diagnostic. -/
theorem invalid_final_json_rejects (text : String) (inp : CallInputs)
    (st : ℕ) (frags : List String) (e : String)
    (hkey : jsFalsy inp.apiKey = false) (hurl : jsFalsy inp.apiUrl = false)
    (hf : inp.fetchOutcome = .response st (some ⟨frags, none⟩))
    (hst : 200 ≤ st ∧ st < 300)
    (hp : parseJson (cleanJsonString (accumContent frags)) = .error e)
    (hnp : inp.abortedAtParse = false) (hnc : inp.abortedAtCatch = false) :
    (translateModel text inp).result =
      .rejected ("Invalid translation result format: " ++ e) := by
  have hfull := runStream_fullContent ((text.length : ℚ) / 4) frags
  simp [translateModel, tryBody, hf, hkey, hurl, hst, hfull, hp, hnp, hnc]

/-- C3 witness: an empty stream accumulates an empty buffer, which fails to
parse; with the signal clear the call rejects with the format message. -/
theorem invalid_final_json_rejects_witness :
    (translateModel "x"
        ⟨some "u", some "k", .response 200 (some ⟨[], none⟩), false, false⟩).result =
      .rejected ("Invalid translation result format: " ++ "Unexpected end of JSON input") :=
  invalid_final_json_rejects "x"
    ⟨some "u", some "k", .response 200 (some ⟨[], none⟩), false, false⟩
    200 [] "Unexpected end of JSON input" rfl rfl rfl (by decide) rfl rfl rfl

/-- C7: a `data: ` line whose remainder is not valid JSON contributes
nothing and aborts nothing; the `[DONE]` sentinel contributes nothing; and
the three stream lines from the claim accumulate exactly `"ok"` before
cleanup. -/
theorem malformed_lines_skipped :
    (∀ (line t : List Char) (e : String),
        line = 'd' :: 'a' :: 't' :: 'a' :: ':' :: ' ' :: t →
        parseJson (String.mk t) = .error e →
        processLineCh line = []) ∧
      processLineCh ('d' :: 'a' :: 't' :: 'a' :: ':' :: ' ' :: doneChars) = [] ∧
      accumContent
        ["data: \x7bnot json\x7d\ndata: \x7b\"choices\":[\x7b\"delta\":\x7b\"content\":\"ok\"\x7d\x7d]\x7d\ndata: [DONE]"] =
        "ok" := by
  refine ⟨?_, rfl, rfl⟩
  intro line t e hline hp
  subst hline
  by_cases hd : t = doneChars
  · simp [processLineCh, hd]
  · simp [processLineCh, hd, hp]

/-- C7 witness: a concrete malformed `data: ` line is skipped. -/
theorem malformed_lines_skipped_witness :
    processLineCh ('d' :: 'a' :: 't' :: 'a' :: ':' :: ' ' :: ['n', 'o', 'p', 'e']) = [] :=
  malformed_lines_skipped.1 _ ['n', 'o', 'p', 'e'] "Invalid literal in JSON" rfl rfl

/-- C8: cleanup strips the markdown fences and surrounding whitespace from
the raw buffer from the claim, and the cleaned buffer parses to the
expected object. -/
theorem cleanup_strips_fences :
    cleanJsonString ("\x60\x60\x60json\n\x7b\"a\":\"b\"\x7d\n\x60\x60\x60") =
        ("\x7b\"a\":\"b\"\x7d") ∧
      parseJson (cleanJsonString ("\x60\x60\x60json\n\x7b\"a\":\"b\"\x7d\n\x60\x60\x60")) =
        .ok (.obj [("a", .str "b")]) :=
  ⟨rfl, rfl⟩

/-- C10: line framing carries nothing across fragments: a single event line
split across two fragments contributes nothing from either half (the first
half fails to parse, the second lacks the `data: ` marker), while the same
event in one fragment contributes its delta. -/
theorem framing_no_carry_over :
    processChunk ("data: \x7b\"choices\":[\x7b\"delta\":") = "" ∧
      processChunk ("\x7b\"content\":\"hello\"\x7d\x7d]\x7d") = "" ∧
      accumContent
        ["data: \x7b\"choices\":[\x7b\"delta\":", "\x7b\"content\":\"hello\"\x7d\x7d]\x7d"] = "" ∧
      accumContent
        ["data: \x7b\"choices\":[\x7b\"delta\":\x7b\"content\":\"hello\"\x7d\x7d]\x7d"] = "hello" :=
  ⟨rfl, rfl, rfl, rfl⟩

/-- C9: with configuration present, once the signal reads as aborted at the
catch, no error can reject the call: every outcome either resolves to the
empty string or takes the fully successful path and resolves to the
re-serialized JSON. -/
theorem aborted_catch_masks_errors (text : String) (inp : CallInputs)
    (hkey : jsFalsy inp.apiKey = false) (hurl : jsFalsy inp.apiUrl = false)
    (habort : inp.abortedAtCatch = true) :
    (translateModel text inp).result = .resolved "" ∨
      ∃ st frags v, inp.fetchOutcome = .response st (some ⟨frags, none⟩) ∧
        (200 ≤ st ∧ st < 300) ∧
        parseJson (cleanJsonString (accumContent frags)) = .ok v ∧
        (translateModel text inp).result = .resolved (stringify v) := by
  have hfull := runStream_fullContent ((text.length : ℚ) / 4)
  cases hfo : inp.fetchOutcome with
  | throws t =>
    left
    cases t <;> simp [translateModel, tryBody, hfo, hkey, hurl, habort]
  | response st body =>
    by_cases hst : 200 ≤ st ∧ st < 300
    · cases body with
      | none => left; simp [translateModel, tryBody, hfo, hkey, hurl, hst, habort]
      | some sb =>
        obtain ⟨frags, et⟩ := sb
        cases et with
        | some t =>
          left
          cases t <;> simp [translateModel, tryBody, hfo, hkey, hurl, hst, habort]
        | none =>
          cases hp : parseJson (cleanJsonString (accumContent frags)) with
          | ok v =>
            right
            refine ⟨st, frags, v, rfl, hst, hp, ?_⟩
            simp [translateModel, tryBody, hfo, hkey, hurl, hst, hfull, hp]
          | error e =>
            left
            by_cases hap : inp.abortedAtParse = true
            · simp [translateModel, tryBody, hfo, hkey, hurl, hst, hfull, hp, hap]
            · simp only [Bool.not_eq_true] at hap
              simp [translateModel, tryBody, hfo, hkey, hurl, hst, hfull, hp, hap, habort]
    · left
      by_cases h401 : st = 401
      · simp [translateModel, tryBody, hfo, hkey, hurl, hst, h401, habort]
      · by_cases h429 : st = 429
        · simp [translateModel, tryBody, hfo, hkey, hurl, hst, h401, h429, habort]
        · simp [translateModel, tryBody, hfo, hkey, hurl, hst, h401, h429, habort]

/-- C9 witness: an aborted signal masks a 401 authentication error. -/
theorem aborted_catch_masks_errors_witness :
    (translateModel "x"
          ⟨some "u", some "k", .response 401 none, false, true⟩).result = .resolved "" ∨
      ∃ st frags v,
        (⟨some "u", some "k", .response 401 none, false, true⟩ : CallInputs).fetchOutcome =
            .response st (some ⟨frags, none⟩) ∧
          (200 ≤ st ∧ st < 300) ∧
          parseJson (cleanJsonString (accumContent frags)) = .ok v ∧
          (translateModel "x"
              ⟨some "u", some "k", .response 401 none, false, true⟩).result =
            .resolved (stringify v) :=
  aborted_catch_masks_errors "x" ⟨some "u", some "k", .response 401 none, false, true⟩
    rfl rfl rfl

/-- `round` on ℚ is monotone. -/
theorem roundMono {x y : ℚ} (h : x ≤ y) : round x ≤ round y := by
  rw [round_eq, round_eq]
  exact Int.floor_mono (by linarith)

/-- Clamping at 100 commutes with rounding. -/
theorem roundMinComm (x : ℚ) : round (min (100 : ℚ) x) = min (round x) 100 := by
  rcases le_total x 100 with h | h
  · rw [min_eq_right h]
    have hr : round x ≤ 100 := by
      have := roundMono h
      simpa using this
    rw [min_eq_left hr]
  · rw [min_eq_left h]
    have hr : (100 : ℤ) ≤ round x := by
      have := roundMono h
      simpa using this
    rw [min_eq_right hr]
    simp

/-- The `onProgress` trace of the loop is the image of the running totals of
extracted-content lengths under the progress formula. -/
theorem runStream_progressTrace (et : ℚ) (frags : List String) :
    (runStream et frags).progressTrace = (cumSums (contentLens frags)).map (progOf et) := by
  have key : ∀ (l : List String) (s : ℕ) (full : String) (pt : List ℤ) (ct : List String),
      (List.foldl (stepFragment et) ⟨full, (s : ℚ) / 4, pt, ct⟩ l).progressTrace
        = pt ++ (cumSumsFrom s (contentLens l)).map (progOf et) := by
    intro l
    induction l with
    | nil => intro s full pt ct; simp [contentLens, cumSumsFrom]
    | cons f t ih =>
      intro s full pt ct
      have hstep : stepFragment et ⟨full, (s : ℚ) / 4, pt, ct⟩ f
          = ⟨full ++ processChunk f, (((s + (processChunk f).length : ℕ)) : ℚ) / 4,
              pt ++ [progOf et (s + (processChunk f).length)],
              ct ++ [full ++ processChunk f]⟩ := by
        simp only [stepFragment, progOf]
        have harg : ((s : ℚ) / 4 + ((processChunk f).length : ℚ) / 4) / et * 100
            = (((s + (processChunk f).length : ℕ)) : ℚ) / 4 / et * 100 := by
          push_cast; ring
        have htk : (s : ℚ) / 4 + ((processChunk f).length : ℚ) / 4
            = (((s + (processChunk f).length : ℕ)) : ℚ) / 4 := by
          push_cast; ring
        rw [harg, htk]
      rw [List.foldl_cons, hstep, ih]
      simp [contentLens, cumSumsFrom]
  have h0 := key frags 0 "" [] []
  have : ((0 : ℕ) : ℚ) / 4 = (0 : ℚ) := by norm_num
  rw [this] at h0
  simpa [runStream, cumSums] using h0

/-- The `try` body's progress trace always comes from some run of the read
loop (the empty run on the paths that never reach it). -/
theorem tryBody_trace (text : String) (inp : CallInputs) :
    ∃ frags, (tryBody text inp).progressTrace
      = (runStream ((text.length : ℚ) / 4) frags).progressTrace := by
  cases hfo : inp.fetchOutcome with
  | throws t => exact ⟨[], by simp [tryBody, hfo, runStream]⟩
  | response st body =>
    by_cases hst : 200 ≤ st ∧ st < 300
    · cases body with
      | none => exact ⟨[], by simp [tryBody, hfo, hst, runStream]⟩
      | some sb =>
        refine ⟨sb.fragments, ?_⟩
        cases het : sb.endThrow with
        | some t => simp [tryBody, hfo, hst, het]
        | none =>
          cases hp : parseJson (cleanJsonString
              (runStream ((text.length : ℚ) / 4) sb.fragments).fullContent) with
          | ok v => simp [tryBody, hfo, hst, het, hp]
          | error e =>
            by_cases hap : inp.abortedAtParse = true
            · simp [tryBody, hfo, hst, het, hp, hap]
            · simp only [Bool.not_eq_true] at hap
              simp [tryBody, hfo, hst, het, hp, hap]
    · by_cases h401 : st = 401
      · exact ⟨[], by simp [tryBody, hfo, hst, h401, runStream]⟩
      · by_cases h429 : st = 429
        · exact ⟨[], by simp [tryBody, hfo, hst, h401, h429, runStream]⟩
        · exact ⟨[], by simp [tryBody, hfo, hst, h401, h429, runStream]⟩

/-- The call's progress trace is the `try` body's (configuration failures
report nothing). -/
theorem translateModel_trace (text : String) (inp : CallInputs) :
    (translateModel text inp).progressTrace = [] ∨
      (translateModel text inp).progressTrace = (tryBody text inp).progressTrace := by
  by_cases hkey : jsFalsy inp.apiKey = true
  · left; simp [translateModel, hkey]
  · simp only [Bool.not_eq_true] at hkey
    by_cases hurl : jsFalsy inp.apiUrl = true
    · left; simp [translateModel, hkey, hurl]
    · simp only [Bool.not_eq_true] at hurl
      right
      cases hout : (tryBody text inp).out with
      | ok s => simp [translateModel, hkey, hurl, hout]
      | error e =>
        cases e with
        | abortError => simp [translateModel, hkey, hurl, hout]
        | errorObj m =>
          by_cases h : inp.abortedAtCatch = true <;>
            simp_all [translateModel, hkey, hurl, hout]
        | nonError d =>
          by_cases h : inp.abortedAtCatch = true <;>
            simp_all [translateModel, hkey, hurl, hout]

/-- Every running total is at least the starting total. -/
theorem cumSumsFrom_le (l : List ℕ) : ∀ s x, x ∈ cumSumsFrom s l → s ≤ x := by
  induction l with
  | nil => intro s x hx; simp [cumSumsFrom] at hx
  | cons n t ih =>
    intro s x hx
    simp only [cumSumsFrom, List.mem_cons] at hx
    rcases hx with rfl | hx
    · omega
    · have := ih (s + n) x hx; omega

/-- The running totals are non-decreasing. -/
theorem cumSumsFrom_chain (l : List ℕ) : ∀ s, List.Chain' (· ≤ ·) (cumSumsFrom s l) := by
  induction l with
  | nil => intro s; simp [cumSumsFrom]
  | cons n t ih =>
    intro s
    simp only [cumSumsFrom]
    rw [List.chain'_cons']
    refine ⟨?_, ih (s + n)⟩
    intro b hb
    have hmem : b ∈ cumSumsFrom (s + n) t := by
      cases ht : cumSumsFrom (s + n) t with
      | nil => simp [ht] at hb
      | cons c cs => simp [ht] at hb; subst hb; simp [ht]
    exact cumSumsFrom_le t (s + n) b hmem

/-- The progress formula is monotone in the total when the estimate is
positive. -/
theorem progOf_mono {et : ℚ} (het : 0 < et) {k k' : ℕ} (h : k ≤ k') :
    progOf et k ≤ progOf et k' := by
  have hk : (k : ℚ) ≤ (k' : ℚ) := by exact_mod_cast h
  have hx : (k : ℚ) / 4 / et * 100 ≤ (k' : ℚ) / 4 / et * 100 := by gcongr
  exact min_le_min (roundMono hx) le_rfl

/-- The progress formula stays within `[0, 100]` when the estimate is
positive. -/
theorem progOf_bounds {et : ℚ} (het : 0 < et) (k : ℕ) :
    0 ≤ progOf et k ∧ progOf et k ≤ 100 := by
  constructor
  · have hx : (0 : ℚ) ≤ (k : ℚ) / 4 / et * 100 := by positivity
    have h0 : (0 : ℤ) ≤ round ((k : ℚ) / 4 / et * 100) := by
      have := roundMono hx
      simpa using this
    exact le_min h0 (by norm_num)
  · exact min_le_right _ _

/-- With configuration intact the call's trace is exactly the `try` body's. -/
theorem translateModel_trace_config (text : String) (inp : CallInputs)
    (hkey : jsFalsy inp.apiKey = false) (hurl : jsFalsy inp.apiUrl = false) :
    (translateModel text inp).progressTrace = (tryBody text inp).progressTrace := by
  cases hout : (tryBody text inp).out with
  | ok s => simp [translateModel, hkey, hurl, hout]
  | error e =>
    cases e with
    | abortError => simp [translateModel, hkey, hurl, hout]
    | errorObj m =>
      by_cases h : inp.abortedAtCatch = true <;>
        simp_all [translateModel, hkey, hurl, hout]
    | nonError d =>
      by_cases h : inp.abortedAtCatch = true <;>
        simp_all [translateModel, hkey, hurl, hout]

/-- On the streaming path the `try` body's trace is the loop's trace,
whatever happens afterwards. -/
theorem tryBody_trace_stream (text : String) (inp : CallInputs) (st : ℕ) (sb : StreamBody)
    (hf : inp.fetchOutcome = .response st (some sb)) (hst : 200 ≤ st ∧ st < 300) :
    (tryBody text inp).progressTrace
      = (runStream ((text.length : ℚ) / 4) sb.fragments).progressTrace := by
  cases het : sb.endThrow with
  | some t => simp [tryBody, hf, hst, het]
  | none =>
    cases hp : parseJson (cleanJsonString
        (runStream ((text.length : ℚ) / 4) sb.fragments).fullContent) with
    | ok v => simp [tryBody, hf, hst, het, hp]
    | error e =>
      by_cases hap : inp.abortedAtParse = true
      · simp [tryBody, hf, hst, het, hp, hap]
      · simp only [Bool.not_eq_true] at hap
        simp [tryBody, hf, hst, het, hp, hap]

/-- A non-empty source text has positive length. -/
theorem length_pos_of_ne_empty {text : String} (h : text ≠ "") : 0 < text.length := by
  cases text with
  | mk data =>
    cases data with
    | nil => exact absurd rfl h
    | cons c cs => simp [String.length]

/-- C5: for every call on a non-empty source text, the values passed to
`onProgress` are non-decreasing over the call and each lies in `[0, 100]`. -/
theorem progress_monotone_bounded (text : String) (inp : CallInputs) (h : text ≠ "") :
    List.Chain' (· ≤ ·) (translateModel text inp).progressTrace ∧
      ∀ p ∈ (translateModel text inp).progressTrace, 0 ≤ p ∧ p ≤ 100 := by
  have hlen : 0 < text.length := length_pos_of_ne_empty h
  have hlenq : (0 : ℚ) < (text.length : ℚ) := by exact_mod_cast hlen
  have het : 0 < (text.length : ℚ) / 4 := by linarith
  rcases translateModel_trace text inp with h0 | htr
  · rw [h0]
    exact ⟨List.chain'_nil, by simp⟩
  · obtain ⟨frags, hfr⟩ := tryBody_trace text inp
    rw [htr, hfr, runStream_progressTrace]
    constructor
    · rw [List.chain'_map]
      exact List.Chain'.imp (fun a b hab => progOf_mono het hab)
        (by simpa [cumSums] using cumSumsFrom_chain (contentLens frags) 0)
    · intro p hp
      simp only [List.mem_map] at hp
      obtain ⟨k, _, rfl⟩ := hp
      exact progOf_bounds het k

/-- C5 witness: a concrete streaming call on `"ab"`. -/
theorem progress_monotone_bounded_witness :
    List.Chain' (· ≤ ·)
        (translateModel "ab"
          ⟨some "u", some "k", .response 200 (some ⟨["data: x"], none⟩),
            false, false⟩).progressTrace ∧
      ∀ p ∈ (translateModel "ab"
          ⟨some "u", some "k", .response 200 (some ⟨["data: x"], none⟩),
            false, false⟩).progressTrace, 0 ≤ p ∧ p ≤ 100 :=
  progress_monotone_bounded "ab"
    ⟨some "u", some "k", .response 200 (some ⟨["data: x"], none⟩), false, false⟩
    (by decide)

/-- C6: after each received fragment the reported progress equals
`round(min(100, 100 * (total/4) / (sourceText.length/4)))` where `total` is
the length of all content extracted so far. -/
theorem progress_formula (text : String) (inp : CallInputs) (st : ℕ) (sb : StreamBody)
    (hkey : jsFalsy inp.apiKey = false) (hurl : jsFalsy inp.apiUrl = false)
    (hf : inp.fetchOutcome = .response st (some sb))
    (hst : 200 ≤ st ∧ st < 300) (h : text ≠ "") :
    (translateModel text inp).progressTrace =
      (cumSums (contentLens sb.fragments)).map
        (fun (k : ℕ) => round (min (100 : ℚ) (100 * ((k : ℚ) / 4) / ((text.length : ℚ) / 4)))) := by
  rw [translateModel_trace_config text inp hkey hurl,
    tryBody_trace_stream text inp st sb hf hst, runStream_progressTrace]
  apply List.map_congr_left
  intro k _
  show progOf ((text.length : ℚ) / 4) k = _
  simp only [progOf]
  rw [← roundMinComm]
  congr 2
  ring

/-- C6 witness: a concrete streaming call on `"ab"`. -/
theorem progress_formula_witness :
    (translateModel "ab"
        ⟨some "u", some "k", .response 200 (some ⟨["data: x"], none⟩),
          false, false⟩).progressTrace =
      (cumSums (contentLens ["data: x"])).map
        (fun (k : ℕ) => round (min (100 : ℚ)
          (100 * ((k : ℚ) / 4) / ((("ab" : String).length : ℚ) / 4)))) :=
  progress_formula "ab"
    ⟨some "u", some "k", .response 200 (some ⟨["data: x"], none⟩), false, false⟩
    200 ⟨["data: x"], none⟩ rfl rfl rfl (by decide) (by decide)

/-! ### Roundtrip machinery: `JSON.parse` inverts the pretty printer -/

/-- A rational whose denominator divides a power of ten — exactly the
number values `JSON.parse` can produce. -/
def DecDen (q : ℚ) : Prop := ∃ k, q.den ∣ 10 ^ k

/-- Values in the image of the parser: numbers have decimal denominators,
object key lists are duplicate-free. -/
inductive Wf : Json → Prop where
  | null : Wf .null
  | bool : ∀ b, Wf (.bool b)
  | num : ∀ q, DecDen q → Wf (.num q)
  | str : ∀ s, Wf (.str s)
  | arr : ∀ xs, (∀ x ∈ xs, Wf x) → Wf (.arr xs)
  | obj : ∀ fs, (fs.map Prod.fst).Nodup → (∀ p ∈ fs, Wf p.2) → Wf (.obj fs)

theorem takeWhile_exact (p : Char → Bool) (l r : List Char)
    (hl : ∀ c ∈ l, p c = true) (hr : ∀ c ∈ r.head?, p c = false) :
    (l ++ r).takeWhile p = l := by
  induction l with
  | nil =>
    cases r with
    | nil => rfl
    | cons c t => simp [List.takeWhile_cons, hr c rfl]
  | cons c t ih =>
    have hc : p c = true := hl c (by simp)
    rw [List.cons_append, List.takeWhile_cons_of_pos hc,
      ih (fun x hx => hl x (by simp [hx]))]

theorem dropWhile_exact (p : Char → Bool) (l r : List Char)
    (hl : ∀ c ∈ l, p c = true) (hr : ∀ c ∈ r.head?, p c = false) :
    (l ++ r).dropWhile p = r := by
  induction l with
  | nil =>
    cases r with
    | nil => rfl
    | cons c t => simp [List.dropWhile_cons, hr c rfl]
  | cons c t ih =>
    have hc : p c = true := hl c (by simp)
    rw [List.cons_append, List.dropWhile_cons_of_pos hc]
    exact ih (fun x hx => hl x (by simp [hx]))

theorem span_exact (p : Char → Bool) (l r : List Char)
    (hl : ∀ c ∈ l, p c = true) (hr : ∀ c ∈ r.head?, p c = false) :
    (l ++ r).span p = (l, r) := by
  rw [List.span_eq_take_drop, takeWhile_exact p l r hl hr, dropWhile_exact p l r hl hr]

/-! #### Decimal digits -/

theorem digitChar_val {d : ℕ} (hd : d < 10) :
    digitVal (Char.ofNat (48 + d)) = d := by
  interval_cases d <;> rfl

theorem digitChar_isDigit {d : ℕ} (hd : d < 10) :
    (Char.ofNat (48 + d)).isDigit = true := by
  interval_cases d <;> rfl

theorem natDigits_all_digit (n : ℕ) : ∀ c ∈ natDigits n, c.isDigit = true := by
  intro c hc
  unfold natDigits at hc
  by_cases h : n = 0
  · simp [h] at hc; subst hc; rfl
  · simp only [h, if_false, List.mem_map, List.mem_reverse] at hc
    obtain ⟨d, hd, rfl⟩ := hc
    exact digitChar_isDigit (Nat.digits_lt_base (by norm_num) hd)

theorem natDigits_ne_nil (n : ℕ) : natDigits n ≠ [] := by
  unfold natDigits
  by_cases h : n = 0
  · simp [h]
  · simp only [h, if_false, ne_eq, List.map_eq_nil_iff, List.reverse_eq_nil_iff]
    exact Nat.digits_ne_nil_iff_ne_zero.mpr h

theorem digitsToNat_aux (l : List ℕ) (hl : ∀ d ∈ l, d < 10) : ∀ (a : ℕ),
    List.foldl (fun acc c => 10 * acc + digitVal c) a
        (l.reverse.map (fun d => Char.ofNat (48 + d)))
      = a * 10 ^ l.length + Nat.ofDigits 10 l := by
  induction l with
  | nil => intro a; simp [Nat.ofDigits]
  | cons d t ih =>
    intro a
    have hd : d < 10 := hl d (by simp)
    simp only [List.reverse_cons, List.map_append, List.map_cons, List.map_nil,
      List.foldl_append, List.foldl_cons, List.foldl_nil]
    rw [ih (fun x hx => hl x (by simp [hx])) a, digitChar_val hd, Nat.ofDigits_cons]
    simp only [List.length_cons, pow_succ]
    ring

theorem digitsToNat_natDigits (n : ℕ) : digitsToNat (natDigits n) = n := by
  unfold natDigits digitsToNat
  by_cases h : n = 0
  · simp [h, digitVal]
  · simp only [h, if_false]
    rw [digitsToNat_aux (Nat.digits 10 n) (fun d hd => Nat.digits_lt_base (by norm_num) hd) 0]
    simp [Nat.ofDigits_digits]

theorem natDigits_head_ne_zero {n : ℕ} (hn : n ≠ 0) :
    ∀ c ∈ (natDigits n).head?, c ≠ '0' := by
  intro c hc
  unfold natDigits at hc
  simp only [hn, if_false] at hc
  rw [List.head?_map, List.head?_reverse] at hc
  have hne : Nat.digits 10 n ≠ [] := Nat.digits_ne_nil_iff_ne_zero.mpr hn
  rw [List.getLast?_eq_getLast _ hne] at hc
  have hceq : Char.ofNat (48 + (Nat.digits 10 n).getLast hne) = c := by
    simpa using hc
  have hlast : (Nat.digits 10 n).getLast hne ≠ 0 := Nat.getLast_digit_ne_zero 10 hn
  have hdlt : (Nat.digits 10 n).getLast hne < 10 :=
    Nat.digits_lt_base (by norm_num) (List.getLast_mem hne)
  intro hq
  have hval := digitChar_val hdlt
  rw [hceq, hq] at hval
  simp [digitVal] at hval
  omega

theorem digitsToNat_replicate_zero (k : ℕ) (l : List Char) :
    digitsToNat (List.replicate k '0' ++ l) = digitsToNat l := by
  unfold digitsToNat
  induction k with
  | zero => rfl
  | succ m ih => simpa [List.replicate_succ, digitVal] using ih

theorem padTo_length {e : ℕ} {l : List Char} (h : l.length ≤ e) :
    (padTo e l).length = e := by
  simp [padTo]; omega

theorem padTo_all_digit (e : ℕ) (l : List Char) (hl : ∀ c ∈ l, c.isDigit = true) :
    ∀ c ∈ padTo e l, c.isDigit = true := by
  intro c hc
  simp only [padTo, List.mem_append, List.mem_replicate] at hc
  rcases hc with ⟨_, rfl⟩ | hc
  · rfl
  · exact hl c hc

theorem digitsToNat_padTo (e : ℕ) (n : ℕ) :
    digitsToNat (padTo e (natDigits n)) = n := by
  unfold padTo
  rw [digitsToNat_replicate_zero, digitsToNat_natDigits]

/-! #### Counting prime factors for the decimal exponent -/

theorem cf_eq (p n : ℕ) :
    cf p n = if 2 ≤ p ∧ 1 ≤ n ∧ p ∣ n then cf p (n / p) + 1 else 0 := by
  rw [cf]
  split <;> rfl

theorem cf_pow_mul {p : ℕ} (hp : 2 ≤ p) (a : ℕ) {m : ℕ} (hm : ¬ p ∣ m) (hm1 : 1 ≤ m) :
    cf p (p ^ a * m) = a := by
  induction a with
  | zero =>
    rw [cf_eq]
    simp only [pow_zero, one_mul]
    rw [if_neg]
    rintro ⟨-, -, hdvd⟩
    exact hm hdvd
  | succ b ih =>
    have hpos : 1 ≤ p ^ (b + 1) * m :=
      Nat.mul_pos (pow_pos (by omega : 0 < p) _) hm1
    have hdvd : p ∣ p ^ (b + 1) * m := by
      exact Dvd.dvd.mul_right (dvd_pow_self p (Nat.succ_ne_zero b)) m
    rw [cf_eq, if_pos ⟨hp, hpos, hdvd⟩]
    have hquot : p ^ (b + 1) * m / p = p ^ b * m := by
      rw [pow_succ, mul_comm (p ^ b) p, mul_assoc]
      exact Nat.mul_div_cancel_left _ (by omega)
    rw [hquot, ih]

theorem cf_split (p : ℕ) (hp : 2 ≤ p) :
    ∀ d, 1 ≤ d → ∃ m, d = p ^ (cf p d) * m ∧ ¬ p ∣ m ∧ 1 ≤ m := by
  intro d
  induction d using Nat.strong_induction_on with
  | _ d ih =>
    intro hd
    by_cases hdvd : p ∣ d
    · have hd2 : d / p < d := Nat.div_lt_self (by omega) (by omega)
      have hdp1 : 1 ≤ d / p := by
        rcases hdvd with ⟨c, rfl⟩
        have : 1 ≤ c := by
          rcases Nat.eq_zero_or_pos c with rfl | h
          · simp at hd
          · exact h
        rw [Nat.mul_div_cancel_left _ (by omega : 0 < p)]
        exact this
      obtain ⟨m, hm, hpm, hm1⟩ := ih (d / p) hd2 hdp1
      refine ⟨m, ?_, hpm, hm1⟩
      rw [cf_eq, if_pos ⟨hp, hd, hdvd⟩, pow_succ]
      calc d = d / p * p := (Nat.div_mul_cancel hdvd).symm
        _ = p ^ (cf p (d / p)) * m * p := by rw [← hm]
        _ = p ^ (cf p (d / p)) * p * m := by ring
    · refine ⟨d, ?_, hdvd, hd⟩
      rw [cf_eq, if_neg (by rintro ⟨-, -, h⟩; exact hdvd h)]
      simp

theorem den_dvd_pow_cf {d : ℕ} (hd : 1 ≤ d) {k : ℕ} (hdvd : d ∣ 10 ^ k) :
    d ∣ 10 ^ (max (cf 2 d) (cf 5 d)) := by
  obtain ⟨m, hm, h2m, hm1⟩ := cf_split 2 (by norm_num) d hd
  have h10 : (10 : ℕ) ^ k = 2 ^ k * 5 ^ k := by
    rw [show (10 : ℕ) = 2 * 5 from rfl, Nat.mul_pow]
  have hmdvd : m ∣ 2 ^ k * 5 ^ k := by
    rw [← h10]
    exact dvd_trans (Dvd.intro_left _ hm.symm) hdvd
  have hcop2 : Nat.Coprime m (2 ^ k) := by
    exact Nat.Coprime.pow_right k
      (((Nat.Prime.coprime_iff_not_dvd Nat.prime_two).mpr h2m).symm)
  have hm5 : m ∣ 5 ^ k := (Nat.Coprime.dvd_mul_left hcop2).mp hmdvd
  obtain ⟨r, hr, h5r, hr1⟩ := cf_split 5 (by norm_num) m hm1
  have hrdvd : r ∣ 5 ^ k := dvd_trans (Dvd.intro_left _ hr.symm) hm5
  have hcopr : Nat.Coprime r (5 ^ k) :=
    Nat.Coprime.pow_right k
      (((Nat.Prime.coprime_iff_not_dvd Nat.prime_five).mpr h5r).symm)
  have hr1' : r = 1 := Nat.dvd_one.mp (hcopr ▸ Nat.dvd_gcd dvd_rfl hrdvd)
  obtain ⟨b, hb_eq⟩ : ∃ b, m = 5 ^ b := by
    refine ⟨cf 5 m, ?_⟩
    conv_lhs => rw [hr]
    rw [hr1', mul_one]
  rw [hb_eq] at hm
  have h52 : ¬ (5 : ℕ) ∣ 2 ^ (cf 2 d) := by
    intro h
    have := Nat.Prime.dvd_of_dvd_pow Nat.prime_five h
    omega
  have hb5 : cf 5 d = b := by
    rw [hm, mul_comm]
    exact cf_pow_mul (by norm_num : 2 ≤ 5) b h52 (pow_pos (by omega : 0 < 2) _)
  have he2 : cf 2 d ≤ max (cf 2 d) (cf 5 d) := le_max_left _ _
  have he5 : b ≤ max (cf 2 d) (cf 5 d) := hb5 ▸ le_max_right _ _
  have h10e : (10 : ℕ) ^ (max (cf 2 d) (cf 5 d))
      = 2 ^ (max (cf 2 d) (cf 5 d)) * 5 ^ (max (cf 2 d) (cf 5 d)) := by
    rw [show (10 : ℕ) = 2 * 5 from rfl, Nat.mul_pow]
  have hfin : d ∣ 2 ^ (max (cf 2 d) (cf 5 d)) * 5 ^ (max (cf 2 d) (cf 5 d)) := by
    calc d = 2 ^ cf 2 d * 5 ^ b := hm
      _ ∣ _ := Nat.mul_dvd_mul (pow_dvd_pow 2 he2) (pow_dvd_pow 5 he5)
  rw [h10e]
  exact hfin

/-! #### Rational representation lemmas for printed numbers -/

theorem den_dvd_div_pow (z : ℤ) (k : ℕ) :
    ((z : ℚ) / ((10 ^ k : ℕ) : ℚ)).den ∣ 10 ^ k := by
  have h1 : ((z : ℚ) / ((10 ^ k : ℕ) : ℚ)) = Rat.divInt z ((10 ^ k : ℕ) : ℤ) := by
    rw [Rat.divInt_eq_div]
    push_cast
    ring
  rw [h1]
  exact_mod_cast Rat.den_dvd z ((10 ^ k : ℕ) : ℤ)

theorem mkNumber_decden (neg : Bool) (ids fds : List Char) (epos eneg : ℕ) :
    DecDen (mkNumber neg ids fds epos eneg) := by
  refine ⟨fds.length + eneg, ?_⟩
  unfold mkNumber
  exact den_dvd_div_pow _ _

/-- A decimal rational is an integer over the power of ten given by the
factor counts of its denominator. -/
theorem decden_rep {q : ℚ} (hq : DecDen q) :
    q = (((q * (10 : ℚ) ^ (max (cf 2 q.den) (cf 5 q.den))).num : ℤ) : ℚ)
        / ((10 ^ (max (cf 2 q.den) (cf 5 q.den)) : ℕ) : ℚ) ∧
      (q * (10 : ℚ) ^ (max (cf 2 q.den) (cf 5 q.den))).den = 1 := by
  obtain ⟨k, hk⟩ := hq
  set e := max (cf 2 q.den) (cf 5 q.den) with he
  have hdvd : q.den ∣ 10 ^ e := den_dvd_pow_cf q.den_pos (by exact hk)
  obtain ⟨m, hm⟩ := hdvd
  have hden0 : ((q.den : ℚ)) ≠ 0 := Nat.cast_ne_zero.mpr q.den_nz
  have hqe : q * (10 : ℚ) ^ e = ((q.num * (m : ℤ) : ℤ) : ℚ) := by
    conv_lhs => rw [← Rat.num_div_den q]
    have h10 : ((10 : ℚ)) ^ e = ((10 ^ e : ℕ) : ℚ) := by push_cast; ring
    rw [h10, hm]
    push_cast
    field_simp
    ring
  have hden1 : (q * (10 : ℚ) ^ e).den = 1 := by rw [hqe]; exact Rat.den_intCast _
  have hval : (((q * (10 : ℚ) ^ e).num : ℤ) : ℚ) = q * (10 : ℚ) ^ e :=
    Rat.coe_int_num_of_den_eq_one hden1
  refine ⟨?_, hden1⟩
  have h10 : ((10 ^ e : ℕ) : ℚ) = (10 : ℚ) ^ e := by push_cast; ring
  rw [h10, hval]
  have hne : ((10 : ℚ)) ^ e ≠ 0 := by positivity
  field_simp

/-- Characters that may legally follow a printed JSON number. -/
def NumDelim (rest : List Char) : Prop :=
  ∀ c ∈ rest.head?, c.isDigit = false ∧ c ≠ '.' ∧ c ≠ 'e' ∧ c ≠ 'E'

theorem numDelim_nil : NumDelim [] := by
  intro c hc
  simp at hc

theorem natDigits_length_le {m e : ℕ} (hm : m < 10 ^ e) (he : 1 ≤ e) :
    (natDigits m).length ≤ e := by
  unfold natDigits
  by_cases h : m = 0
  · simpa [h] using he
  · simp only [h, if_false, List.length_map, List.length_reverse]
    have h1 : (10 : ℕ) ^ (Nat.digits 10 m).length ≤ 10 * m :=
      Nat.base_pow_length_digits_le 10 m (by norm_num) h
    have h2 : (10 : ℕ) ^ (Nat.digits 10 m).length < 10 ^ (e + 1) := by
      have : 10 * m < 10 ^ (e + 1) := by
        rw [pow_succ, mul_comm (10 ^ e) 10]
        omega
      omega
    have h3 : (Nat.digits 10 m).length < e + 1 :=
      (Nat.pow_lt_pow_iff_right (by norm_num : 1 < 10)).mp h2
    omega

theorem parseNumTail_no_exp (neg : Bool) (ids fds : List Char) (cs : List Char)
    (h : ∀ c ∈ cs.head?, c ≠ 'e' ∧ c ≠ 'E') :
    parseNumTail neg ids fds cs = .ok (mkNumber neg ids fds 0 0, cs) := by
  cases cs with
  | nil => rfl
  | cons c t =>
    have hc := h c rfl
    simp only [parseNumTail]
    rw [if_neg (by rintro (rfl | rfl) <;> simp_all)]

theorem parseNumberCore_print_int (neg : Bool) (na : ℕ) (rest : List Char)
    (hrest : NumDelim rest) :
    parseNumberCore neg (natDigits na ++ rest)
      = .ok (mkNumber neg (natDigits na) [] 0 0, rest) := by
  have hspan : (natDigits na ++ rest).span (fun c => c.isDigit) = (natDigits na, rest) :=
    span_exact _ _ _ (natDigits_all_digit na) (fun c hc => (hrest c hc).1)
  have hne : (natDigits na).isEmpty = false := by
    cases h : natDigits na with
    | nil => exact absurd h (natDigits_ne_nil na)
    | cons a t => rfl
  have hlz : ¬((natDigits na).head? = some '0' ∧ 2 ≤ (natDigits na).length) := by
    by_cases hna : na = 0
    · subst hna
      rintro ⟨-, h2⟩
      simp [natDigits] at h2
    · rintro ⟨h1, -⟩
      exact natDigits_head_ne_zero hna '0' h1 rfl
  simp only [parseNumberCore, hspan, hne, Bool.false_eq_true, if_false, if_neg hlz]
  cases hr : rest with
  | nil => rfl
  | cons c t =>
    have hc := hrest c (by rw [hr]; rfl)
    simp only [if_neg hc.2.1]
    exact parseNumTail_no_exp neg (natDigits na) [] (c :: t) (fun x hx => by
      simp only [List.head?_cons, Option.mem_def, Option.some.injEq] at hx
      subst hx
      exact ⟨hc.2.2.1, hc.2.2.2⟩)

theorem parseNumberCore_print_frac (neg : Bool) (i : ℕ) (fds : List Char) (rest : List Char)
    (hfds_ne : fds ≠ []) (hfds_digit : ∀ c ∈ fds, c.isDigit = true)
    (hrest : NumDelim rest) :
    parseNumberCore neg (natDigits i ++ '.' :: (fds ++ rest))
      = .ok (mkNumber neg (natDigits i) fds 0 0, rest) := by
  have hspan : (natDigits i ++ '.' :: (fds ++ rest)).span (fun c => c.isDigit)
      = (natDigits i, '.' :: (fds ++ rest)) :=
    span_exact _ _ _ (natDigits_all_digit i)
      (fun c hc => by
        simp only [List.head?_cons, Option.mem_def, Option.some.injEq] at hc
        subst hc
        rfl)
  have hne : (natDigits i).isEmpty = false := by
    cases h : natDigits i with
    | nil => exact absurd h (natDigits_ne_nil i)
    | cons a t => rfl
  have hlz : ¬((natDigits i).head? = some '0' ∧ 2 ≤ (natDigits i).length) := by
    by_cases hi : i = 0
    · subst hi
      rintro ⟨-, h2⟩
      simp [natDigits] at h2
    · rintro ⟨h1, -⟩
      exact natDigits_head_ne_zero hi '0' h1 rfl
  have hfspan : (fds ++ rest).span (fun x => x.isDigit) = (fds, rest) :=
    span_exact _ _ _ hfds_digit (fun c hc => (hrest c hc).1)
  have hfne : fds.isEmpty = false := by
    cases h : fds with
    | nil => exact absurd h hfds_ne
    | cons a t => rfl
  simp only [parseNumberCore, hspan, hne, Bool.false_eq_true, if_false, if_neg hlz,
    if_pos rfl, hfspan, hfne]
  cases hr : rest with
  | nil => exact parseNumTail_no_exp neg (natDigits i) fds [] (fun c hc => by simp at hc)
  | cons c t =>
    have hc := hrest c (by rw [hr]; rfl)
    exact parseNumTail_no_exp neg (natDigits i) fds (c :: t) (fun x hx => by
      simp only [List.head?_cons, Option.mem_def, Option.some.injEq] at hx
      subst hx
      exact ⟨hc.2.2.1, hc.2.2.2⟩)

theorem mkNumber_int (neg : Bool) (na : ℕ) :
    mkNumber neg (natDigits na) [] 0 0 = (if neg then -(na : ℚ) else (na : ℚ)) := by
  unfold mkNumber
  have h0 : digitsToNat ([] : List Char) = 0 := rfl
  rw [h0, digitsToNat_natDigits]
  simp only [List.length_nil, pow_zero, mul_one, add_zero]
  cases neg <;> push_cast <;> simp

theorem mkNumber_frac (neg : Bool) (na e : ℕ) (he : 1 ≤ e) :
    mkNumber neg (natDigits (na / 10 ^ e)) (padTo e (natDigits (na % 10 ^ e))) 0 0
      = (if neg then -(na : ℚ) else (na : ℚ)) / ((10 ^ e : ℕ) : ℚ) := by
  unfold mkNumber
  have hmod : na % 10 ^ e < 10 ^ e := Nat.mod_lt _ (pow_pos (by norm_num) e)
  have hlen : (padTo e (natDigits (na % 10 ^ e))).length = e :=
    padTo_length (natDigits_length_le hmod he)
  rw [hlen, digitsToNat_natDigits, digitsToNat_padTo]
  have hbase : na / 10 ^ e * 10 ^ e + na % 10 ^ e = na := by
    rw [mul_comm]
    exact Nat.div_add_mod na (10 ^ e)
  rw [hbase]
  simp only [pow_zero, mul_one, add_zero]
  cases neg <;> simp

/-- Parsing the printed decimal form of a decimal rational recovers it. -/
theorem parseNumber_numChars {q : ℚ} (hq : DecDen q) (rest : List Char)
    (hrest : NumDelim rest) :
    parseNumber (numChars q ++ rest) = .ok (q, rest) := by
  obtain ⟨hrep, hden1⟩ := decden_rep hq
  set e := max (cf 2 q.den) (cf 5 q.den) with he
  set n := (q * (10 : ℚ) ^ e).num with hn
  have hsign' : (if n < 0 then -((n.natAbs : ℕ) : ℚ) else ((n.natAbs : ℕ) : ℚ)) = (n : ℚ) := by
    have habs : ((n.natAbs : ℕ) : ℚ) = ((|n| : ℤ) : ℚ) := Nat.cast_natAbs n
    by_cases hlt : n < 0
    · rw [abs_of_neg hlt] at habs
      rw [if_pos hlt, habs]
      push_cast
      ring
    · rw [abs_of_nonneg (not_lt.mp hlt)] at habs
      rw [if_neg hlt, habs]
  simp only [numChars, ← he, ← hn]
  by_cases he0 : e = 0
  · rw [if_pos he0]
    have hq_val : q = (n : ℚ) := by
      rw [hrep, he0]
      norm_num
    by_cases hneg : n < 0
    · rw [if_pos hneg]
      have hl : (['-'] ++ natDigits n.natAbs) ++ rest
          = '-' :: (natDigits n.natAbs ++ rest) := by simp
      rw [hl]
      have hP : parseNumber ('-' :: (natDigits n.natAbs ++ rest))
          = parseNumberCore true (natDigits n.natAbs ++ rest) := by
        simp [parseNumber]
      rw [hP, parseNumberCore_print_int true n.natAbs rest hrest, mkNumber_int]
      have hval : -((n.natAbs : ℕ) : ℚ) = q := by
        rw [hq_val, ← hsign', if_pos hneg]
      simp [hval]
    · rw [if_neg hneg]
      have hl : (([] : List Char) ++ natDigits n.natAbs) ++ rest
          = natDigits n.natAbs ++ rest := by simp
      rw [hl]
      have hP : parseNumber (natDigits n.natAbs ++ rest)
          = parseNumberCore false (natDigits n.natAbs ++ rest) := by
        cases hnd : natDigits n.natAbs with
        | nil => exact absurd hnd (natDigits_ne_nil _)
        | cons c0 t0 =>
          have hc0digit : c0.isDigit = true :=
            natDigits_all_digit _ c0 (by rw [hnd]; exact List.mem_cons_self _ _)
          have hc0 : ¬ c0 = '-' := by
            intro h
            rw [h] at hc0digit
            exact absurd hc0digit (by decide)
          simp [parseNumber, hc0]
      rw [hP, parseNumberCore_print_int false n.natAbs rest hrest, mkNumber_int]
      have hval : ((n.natAbs : ℕ) : ℚ) = q := by
        rw [hq_val, ← hsign', if_neg hneg]
      simp [hval]
  · rw [if_neg he0]
    have he1 : 1 ≤ e := by omega
    have hq_val : q = (n : ℚ) / ((10 ^ e : ℕ) : ℚ) := hrep
    have hmod : n.natAbs % 10 ^ e < 10 ^ e := Nat.mod_lt _ (pow_pos (by norm_num) e)
    have hfr_len : (padTo e (natDigits (n.natAbs % 10 ^ e))).length = e :=
      padTo_length (natDigits_length_le hmod he1)
    have hfr_ne : padTo e (natDigits (n.natAbs % 10 ^ e)) ≠ [] := by
      intro h
      rw [h] at hfr_len
      simp at hfr_len
      omega
    have hfr_digit : ∀ c ∈ padTo e (natDigits (n.natAbs % 10 ^ e)), c.isDigit = true :=
      padTo_all_digit e _ (natDigits_all_digit _)
    have hvalq : (if n < 0 then -((n.natAbs : ℕ) : ℚ) else ((n.natAbs : ℕ) : ℚ))
        / ((10 ^ e : ℕ) : ℚ) = q := by
      rw [hsign', ← hq_val]
    by_cases hneg : n < 0
    · rw [if_pos hneg]
      have hl : (['-'] ++ natDigits (n.natAbs / 10 ^ e)
            ++ '.' :: padTo e (natDigits (n.natAbs % 10 ^ e))) ++ rest
          = '-' :: (natDigits (n.natAbs / 10 ^ e)
            ++ '.' :: (padTo e (natDigits (n.natAbs % 10 ^ e)) ++ rest)) := by
        simp
      rw [hl]
      have hP : parseNumber ('-' :: (natDigits (n.natAbs / 10 ^ e)
            ++ '.' :: (padTo e (natDigits (n.natAbs % 10 ^ e)) ++ rest)))
          = parseNumberCore true (natDigits (n.natAbs / 10 ^ e)
            ++ '.' :: (padTo e (natDigits (n.natAbs % 10 ^ e)) ++ rest)) := by
        simp [parseNumber]
      rw [hP, parseNumberCore_print_frac true (n.natAbs / 10 ^ e) _ rest hfr_ne hfr_digit hrest,
        mkNumber_frac true n.natAbs e he1]
      rw [if_pos hneg] at hvalq
      push_cast at hvalq
      simp [hvalq]
    · rw [if_neg hneg]
      have hl : (([] : List Char) ++ natDigits (n.natAbs / 10 ^ e)
            ++ '.' :: padTo e (natDigits (n.natAbs % 10 ^ e))) ++ rest
          = natDigits (n.natAbs / 10 ^ e)
            ++ '.' :: (padTo e (natDigits (n.natAbs % 10 ^ e)) ++ rest) := by
        simp
      rw [hl]
      have hP : parseNumber (natDigits (n.natAbs / 10 ^ e)
            ++ '.' :: (padTo e (natDigits (n.natAbs % 10 ^ e)) ++ rest))
          = parseNumberCore false (natDigits (n.natAbs / 10 ^ e)
            ++ '.' :: (padTo e (natDigits (n.natAbs % 10 ^ e)) ++ rest)) := by
        cases hnd : natDigits (n.natAbs / 10 ^ e) with
        | nil => exact absurd hnd (natDigits_ne_nil _)
        | cons c0 t0 =>
          have hc0digit : c0.isDigit = true :=
            natDigits_all_digit _ c0 (by rw [hnd]; exact List.mem_cons_self _ _)
          have hc0 : ¬ c0 = '-' := by
            intro h
            rw [h] at hc0digit
            exact absurd hc0digit (by decide)
          simp [parseNumber, hc0]
      rw [hP, parseNumberCore_print_frac false (n.natAbs / 10 ^ e) _ rest hfr_ne hfr_digit hrest,
        mkNumber_frac false n.natAbs e he1]
      rw [if_neg hneg] at hvalq
      push_cast at hvalq
      simp [hvalq]

/-! #### String escaping roundtrip -/

theorem hexVal_hexDigitCh {m : ℕ} (hm : m < 16) : hexVal (hexDigitCh m) = some m := by
  interval_cases m <;> rfl

theorem escList_cons (c : Char) (t : List Char) :
    escList (c :: t) = escapeChar c ++ escList t := by
  simp [escList]

/-- Parsing the escaped body of a printed string literal recovers the
original characters. -/
theorem parseStringRest_print (l : List Char) : ∀ (acc rest : List Char) (fuel : ℕ),
    (escList l).length < fuel →
    parseStringRest fuel acc (escList l ++ '"' :: rest)
      = .ok (String.mk (acc.reverse ++ l), rest) := by
  induction l with
  | nil =>
    intro acc rest fuel hf
    obtain ⟨f, rfl⟩ : ∃ f, fuel = f + 1 := ⟨fuel - 1, by omega⟩
    have h0 : escList [] = [] := rfl
    rw [h0, List.nil_append]
    simp [parseStringRest]
  | cons c t ih =>
    intro acc rest fuel hf
    obtain ⟨f, rfl⟩ : ∃ f, fuel = f + 1 := ⟨fuel - 1, by omega⟩
    rw [escList_cons] at hf ⊢
    by_cases h1 : c = '"'
    · subst h1
      have hf' : (escList t).length < f := by
        have hl : escapeChar '"' = ['\\', '"'] := rfl
        rw [hl] at hf
        simp at hf
        omega
      have hstep : parseStringRest (f + 1) acc ((escapeChar '"' ++ escList t) ++ '"' :: rest)
          = parseStringRest f ('"' :: acc) (escList t ++ '"' :: rest) := rfl
      rw [hstep, ih ('"' :: acc) rest f hf']
      simp
    · by_cases h2 : c = '\\'
      · subst h2
        have hf' : (escList t).length < f := by
          have hl : escapeChar '\\' = ['\\', '\\'] := rfl
          rw [hl] at hf
          simp at hf
          omega
        have hstep : parseStringRest (f + 1) acc ((escapeChar '\\' ++ escList t) ++ '"' :: rest)
            = parseStringRest f ('\\' :: acc) (escList t ++ '"' :: rest) := rfl
        rw [hstep, ih ('\\' :: acc) rest f hf']
        simp
      · by_cases h3 : c = '\x08'
        · subst h3
          have hf' : (escList t).length < f := by
            have hl : escapeChar '\x08' = ['\\', 'b'] := rfl
            rw [hl] at hf
            simp at hf
            omega
          have hstep : parseStringRest (f + 1) acc
                ((escapeChar '\x08' ++ escList t) ++ '"' :: rest)
              = parseStringRest f ('\x08' :: acc) (escList t ++ '"' :: rest) := rfl
          rw [hstep, ih ('\x08' :: acc) rest f hf']
          simp
        · by_cases h4 : c = '\t'
          · subst h4
            have hf' : (escList t).length < f := by
              have hl : escapeChar '\t' = ['\\', 't'] := rfl
              rw [hl] at hf
              simp at hf
              omega
            have hstep : parseStringRest (f + 1) acc
                  ((escapeChar '\t' ++ escList t) ++ '"' :: rest)
                = parseStringRest f ('\t' :: acc) (escList t ++ '"' :: rest) := rfl
            rw [hstep, ih ('\t' :: acc) rest f hf']
            simp
          · by_cases h5 : c = '\n'
            · subst h5
              have hf' : (escList t).length < f := by
                have hl : escapeChar '\n' = ['\\', 'n'] := rfl
                rw [hl] at hf
                simp at hf
                omega
              have hstep : parseStringRest (f + 1) acc
                    ((escapeChar '\n' ++ escList t) ++ '"' :: rest)
                  = parseStringRest f ('\n' :: acc) (escList t ++ '"' :: rest) := rfl
              rw [hstep, ih ('\n' :: acc) rest f hf']
              simp
            · by_cases h6 : c = '\x0c'
              · subst h6
                have hf' : (escList t).length < f := by
                  have hl : escapeChar '\x0c' = ['\\', 'f'] := rfl
                  rw [hl] at hf
                  simp at hf
                  omega
                have hstep : parseStringRest (f + 1) acc
                      ((escapeChar '\x0c' ++ escList t) ++ '"' :: rest)
                    = parseStringRest f ('\x0c' :: acc) (escList t ++ '"' :: rest) := rfl
                rw [hstep, ih ('\x0c' :: acc) rest f hf']
                simp
              · by_cases h7 : c = '\r'
                · subst h7
                  have hf' : (escList t).length < f := by
                    have hl : escapeChar '\r' = ['\\', 'r'] := rfl
                    rw [hl] at hf
                    simp at hf
                    omega
                  have hstep : parseStringRest (f + 1) acc
                        ((escapeChar '\r' ++ escList t) ++ '"' :: rest)
                      = parseStringRest f ('\r' :: acc) (escList t ++ '"' :: rest) := rfl
                  rw [hstep, ih ('\r' :: acc) rest f hf']
                  simp
                · by_cases h8 : c.toNat < 32
                  · have hdiv : c.toNat / 16 < 16 := by omega
                    have hmod : c.toNat % 16 < 16 := by omega
                    have hesc : escapeChar c
                        = ['\\', 'u', '0', '0', hexDigitCh (c.toNat / 16),
                            hexDigitCh (c.toNat % 16)] := by
                      simp only [escapeChar, if_neg h1, if_neg h2, if_neg h3, if_neg h4,
                        if_neg h5, if_neg h6, if_neg h7, if_pos h8]
                    have hf' : (escList t).length < f := by
                      rw [hesc] at hf
                      simp at hf
                      omega
                    have hinput : (escapeChar c ++ escList t) ++ '"' :: rest
                        = '\\' :: 'u' :: '0' :: '0' :: hexDigitCh (c.toNat / 16) ::
                            hexDigitCh (c.toNat % 16) :: (escList t ++ '"' :: rest) := by
                      rw [hesc]
                      simp
                    rw [hinput]
                    have hcode : 4096 * 0 + 256 * 0 + 16 * (c.toNat / 16) + c.toNat % 16
                        = c.toNat := by omega
                    have hstep : parseStringRest (f + 1) acc
                          ('\\' :: 'u' :: '0' :: '0' :: hexDigitCh (c.toNat / 16) ::
                            hexDigitCh (c.toNat % 16) :: (escList t ++ '"' :: rest))
                        = parseStringRest f (Char.ofNat c.toNat :: acc)
                            (escList t ++ '"' :: rest) := by
                      have hbs : ¬ ('\\' : Char) = '"' := by decide
                      have e0 : hexVal '0' = some 0 := rfl
                      simp only [parseStringRest, e0, hexVal_hexDigitCh hdiv,
                        hexVal_hexDigitCh hmod, if_neg hbs]
                      rw [if_neg (by omega :
                        ¬(55296 ≤ 4096 * 0 + 256 * 0 + 16 * (c.toNat / 16) + c.toNat % 16 ∧
                          4096 * 0 + 256 * 0 + 16 * (c.toNat / 16) + c.toNat % 16 ≤ 56319))]
                      rw [if_neg (by omega :
                        ¬(56320 ≤ 4096 * 0 + 256 * 0 + 16 * (c.toNat / 16) + c.toNat % 16 ∧
                          4096 * 0 + 256 * 0 + 16 * (c.toNat / 16) + c.toNat % 16 ≤ 57343))]
                      rw [hcode]
                      simp
                    rw [hstep, Char.ofNat_toNat, ih (c :: acc) rest f hf']
                    simp
                  · have hesc : escapeChar c = [c] := by
                      simp only [escapeChar, if_neg h1, if_neg h2, if_neg h3, if_neg h4,
                        if_neg h5, if_neg h6, if_neg h7, if_neg h8]
                    have hf' : (escList t).length < f := by
                      rw [hesc] at hf
                      simp at hf
                      omega
                    have hinput : (escapeChar c ++ escList t) ++ '"' :: rest
                        = c :: (escList t ++ '"' :: rest) := by
                      rw [hesc]
                      simp
                    rw [hinput]
                    have hstep : parseStringRest (f + 1) acc (c :: (escList t ++ '"' :: rest))
                        = parseStringRest f (c :: acc) (escList t ++ '"' :: rest) := by
                      simp only [parseStringRest, if_neg h1, if_neg h2, if_neg h8]
                    rw [hstep, ih (c :: acc) rest f hf']
                    simp

/-! #### Whitespace and head-character facts -/

theorem skipWs_all (ws : List Char) (hws : ∀ c ∈ ws, isJsonWs c = true) (l : List Char) :
    skipWs (ws ++ l) = skipWs l := by
  induction ws with
  | nil => rfl
  | cons c t ih =>
    simp only [List.cons_append, skipWs, hws c (by simp), if_true]
    exact ih (fun x hx => hws x (by simp [hx]))

theorem skipWs_nonWs {l : List Char} (h : ∀ c ∈ l.head?, isJsonWs c = false) :
    skipWs l = l := by
  cases l with
  | nil => rfl
  | cons c t => simp [skipWs, h c rfl]

theorem mkIndent_ws (d : ℕ) : ∀ c ∈ mkIndent d, isJsonWs c = true := by
  intro c hc
  simp only [mkIndent, List.mem_replicate] at hc
  rw [hc.2]
  rfl

theorem ws_split {c : Char} (h : isJsonWs c = true) :
    c = ' ' ∨ c = '\t' ∨ c = '\n' ∨ c = '\r' := by
  simp only [isJsonWs, Bool.or_eq_true, decide_eq_true_eq] at h
  tauto

theorem ws_numDelim_head {c : Char} (h : isJsonWs c = true) :
    c.isDigit = false ∧ c ≠ '.' ∧ c ≠ 'e' ∧ c ≠ 'E' := by
  rcases ws_split h with rfl | rfl | rfl | rfl <;> exact ⟨rfl, by decide, by decide, by decide⟩

theorem numDelim_cons {c : Char}
    (h : c.isDigit = false ∧ c ≠ '.' ∧ c ≠ 'e' ∧ c ≠ 'E') (t : List Char) :
    NumDelim (c :: t) := by
  intro x hx
  simp only [List.head?_cons, Option.mem_def, Option.some.injEq] at hx
  subst hx
  exact h

theorem numDelim_ws (ws : List Char) (hws : ∀ c ∈ ws, isJsonWs c = true)
    {l : List Char} (hl : NumDelim l) : NumDelim (ws ++ l) := by
  cases ws with
  | nil => simpa using hl
  | cons c t =>
    exact numDelim_cons (ws_numDelim_head (hws c (by simp))) _

/-- Every printed JSON value starts with a value-head character. -/
theorem natDigits_head (m : ℕ) :
    ∃ c t, natDigits m = c :: t ∧ c.isDigit = true := by
  cases h : natDigits m with
  | nil => exact absurd h (natDigits_ne_nil m)
  | cons c t =>
    exact ⟨c, t, rfl, natDigits_all_digit m c (by rw [h]; exact List.mem_cons_self _ _)⟩

theorem numChars_head (q : ℚ) :
    ∃ c t, numChars q = c :: t ∧ (c = '-' ∨ c.isDigit = true) := by
  simp only [numChars]
  split_ifs with h1 h2 h3
  · exact ⟨'-', _, rfl, Or.inl rfl⟩
  · obtain ⟨c, t, hct, hd⟩ :=
      natDigits_head (q * (10 : ℚ) ^ (max (cf 2 q.den) (cf 5 q.den))).num.natAbs
    rw [List.nil_append, hct]
    exact ⟨c, t, rfl, Or.inr hd⟩
  · exact ⟨'-', _, rfl, Or.inl rfl⟩
  · obtain ⟨c, t, hct, hd⟩ :=
      natDigits_head ((q * (10 : ℚ) ^ (max (cf 2 q.den) (cf 5 q.den))).num.natAbs
        / 10 ^ (max (cf 2 q.den) (cf 5 q.den)))
    rw [List.nil_append, hct]
    exact ⟨c, t ++ _, rfl, Or.inr hd⟩

/-- Head characters of printed values. -/
def ValueHead (c : Char) : Prop :=
  c = 'n' ∨ c = 't' ∨ c = 'f' ∨ c = '"' ∨ c = '[' ∨ c = '\x7b' ∨ c = '-' ∨ c.isDigit = true

theorem printVal_head (d : ℕ) (v : Json) :
    ∃ c t, printVal d v = c :: t ∧ ValueHead c := by
  cases v with
  | null => exact ⟨'n', ['u', 'l', 'l'], by simp only [printVal], Or.inl rfl⟩
  | bool b => cases b with
    | true => exact ⟨'t', ['r', 'u', 'e'], by simp only [printVal], Or.inr (Or.inl rfl)⟩
    | false =>
      exact ⟨'f', ['a', 'l', 's', 'e'], by simp only [printVal], Or.inr (Or.inr (Or.inl rfl))⟩
  | num q =>
    obtain ⟨c, t, hct, hd⟩ := numChars_head q
    refine ⟨c, t, by simp only [printVal]; exact hct, ?_⟩
    rcases hd with rfl | hd
    · exact Or.inr (Or.inr (Or.inr (Or.inr (Or.inr (Or.inr (Or.inl rfl))))))
    · exact Or.inr (Or.inr (Or.inr (Or.inr (Or.inr (Or.inr (Or.inr hd))))))
  | str s =>
    refine ⟨'"', escList s.data ++ ['"'], ?_, Or.inr (Or.inr (Or.inr (Or.inl rfl)))⟩
    simp only [printVal, quoteString, List.cons_append]
  | arr xs => cases xs with
    | nil => exact ⟨'[', [']'], by simp only [printVal], Or.inr (Or.inr (Or.inr (Or.inr (Or.inl rfl))))⟩
    | cons x t =>
      refine ⟨'[', '\n' :: mkIndent (d + 1) ++ printElemsP (d + 1) x t ++
        '\n' :: mkIndent d ++ [']'], ?_, Or.inr (Or.inr (Or.inr (Or.inr (Or.inl rfl))))⟩
      simp only [printVal, List.cons_append, List.append_assoc]
  | obj fs => cases fs with
    | nil =>
      exact ⟨'\x7b', ['\x7d'], by simp only [printVal],
        Or.inr (Or.inr (Or.inr (Or.inr (Or.inr (Or.inl rfl)))))⟩
    | cons f t =>
      refine ⟨'\x7b', '\n' :: mkIndent (d + 1) ++ printFieldsP (d + 1) f t ++
        '\n' :: mkIndent d ++ ['\x7d'], ?_, Or.inr (Or.inr (Or.inr (Or.inr (Or.inr (Or.inl rfl)))))⟩
      simp only [printVal, List.cons_append, List.append_assoc]

theorem valueHead_not_ws {c : Char} (h : ValueHead c) : isJsonWs c = false := by
  rcases h with rfl | rfl | rfl | rfl | rfl | rfl | rfl | hd
  · rfl
  · rfl
  · rfl
  · rfl
  · rfl
  · rfl
  · rfl
  · have h1 : c ≠ ' ' := by intro h'; rw [h'] at hd; exact absurd hd (by decide)
    have h2 : c ≠ '\t' := by intro h'; rw [h'] at hd; exact absurd hd (by decide)
    have h3 : c ≠ '\n' := by intro h'; rw [h'] at hd; exact absurd hd (by decide)
    have h4 : c ≠ '\r' := by intro h'; rw [h'] at hd; exact absurd hd (by decide)
    simp [isJsonWs, h1, h2, h3, h4]

theorem valueHead_ne_close {c : Char} (h : ValueHead c) :
    c ≠ ']' ∧ c ≠ '\x7d' := by
  rcases h with rfl | rfl | rfl | rfl | rfl | rfl | rfl | hd
  · exact ⟨by decide, by decide⟩
  · exact ⟨by decide, by decide⟩
  · exact ⟨by decide, by decide⟩
  · exact ⟨by decide, by decide⟩
  · exact ⟨by decide, by decide⟩
  · exact ⟨by decide, by decide⟩
  · exact ⟨by decide, by decide⟩
  · constructor
    · intro h'; rw [h'] at hd; exact absurd hd (by decide)
    · intro h'; rw [h'] at hd; exact absurd hd (by decide)

/-- Strong induction on JSON values via `sizeOf`. -/
theorem json_induction (P : Json → Prop)
    (hnull : P .null) (hbool : ∀ b, P (.bool b)) (hnum : ∀ q, P (.num q))
    (hstr : ∀ s, P (.str s))
    (harr : ∀ xs, (∀ x ∈ xs, P x) → P (.arr xs))
    (hobj : ∀ fs, (∀ p ∈ fs, P p.2) → P (.obj fs)) : ∀ v, P v := by
  have key : ∀ (N : ℕ) (v : Json), sizeOf v ≤ N → P v := by
    intro N
    induction N with
    | zero => intro v hv; cases v <;> simp at hv
    | succ N ihN =>
      intro v hv
      cases v with
      | null => exact hnull
      | bool b => exact hbool b
      | num q => exact hnum q
      | str s => exact hstr s
      | arr xs =>
        refine harr xs (fun x hx => ihN x ?_)
        have h1 : sizeOf x < sizeOf xs := List.sizeOf_lt_of_mem hx
        have h2 : sizeOf (Json.arr xs) = 1 + sizeOf xs := by simp
        omega
      | obj fs =>
        refine hobj fs (fun p hp => ihN p.2 ?_)
        have h1 : sizeOf p < sizeOf fs := List.sizeOf_lt_of_mem hp
        have h2 : sizeOf p.2 < sizeOf p := by
          obtain ⟨a, b⟩ := p
          simp
          try omega
        have h3 : sizeOf (Json.obj fs) = 1 + sizeOf fs := by simp
        omega
  intro v
  exact key (sizeOf v) v le_rfl

theorem insertField_append {acc : List (String × Json)} {k : String} (v : Json)
    (hk : k ∉ acc.map Prod.fst) : insertField acc k v = acc ++ [(k, v)] := by
  unfold insertField
  rw [if_neg]
  intro h
  rw [List.any_eq_true] at h
  obtain ⟨p, hp, hpk⟩ := h
  simp only [decide_eq_true_eq] at hpk
  exact hk (by rw [← hpk]; exact List.mem_map_of_mem Prod.fst hp)

/-- The roundtrip property of one value. -/
def L1Prop (v : Json) : Prop := ∀ (d fuel : ℕ) (rest : List Char),
  (printVal d v).length < fuel → NumDelim rest →
  parseValue fuel (printVal d v ++ rest) = .ok (v, rest)

theorem parseValue_ws (fuel : ℕ) (ws l : List Char)
    (hws : ∀ c ∈ ws, isJsonWs c = true) :
    parseValue fuel (ws ++ l) = parseValue fuel l := by
  cases fuel with
  | zero => rfl
  | succ f => simp only [parseValue, skipWs_all ws hws l]

theorem printElemsP_head (d : ℕ) (x : Json) (xs : List Json) :
    ∃ c t, printElemsP d x xs = c :: t ∧ ValueHead c := by
  cases xs with
  | nil => simpa only [printElemsP] using printVal_head d x
  | cons y ys =>
    obtain ⟨c, t, h, hv⟩ := printVal_head d x
    refine ⟨c, t ++ (',' :: '\n' :: mkIndent d ++ printElemsP d y ys), ?_, hv⟩
    simp only [printElemsP, h, List.cons_append, List.append_assoc]

theorem printFieldsP_head (d : ℕ) (f : String × Json) (fs : List (String × Json)) :
    ∃ t, printFieldsP d f fs = '"' :: t := by
  obtain ⟨k, w⟩ := f
  cases fs with
  | nil =>
    refine ⟨escList k.data ++ '"' :: ':' :: ' ' :: printVal d w, ?_⟩
    simp only [printFieldsP, quoteString, List.cons_append, List.append_assoc,
      List.singleton_append, List.nil_append]
  | cons g gs =>
    refine ⟨escList k.data ++ '"' :: ':' :: ' ' :: (printVal d w ++
      ',' :: '\n' :: mkIndent d ++ printFieldsP d g gs), ?_⟩
    simp only [printFieldsP, quoteString, List.cons_append, List.append_assoc,
      List.singleton_append, List.nil_append]

/-- Parsing the printed elements of a non-empty array recovers the elements. -/
theorem parseElements_print (xs : List Json) : ∀ (x : Json),
    (∀ v ∈ x :: xs, L1Prop v) →
    ∀ (d : ℕ) (acc : List Json) (ws1 ws2 rest : List Char) (fuel : ℕ),
    (∀ c ∈ ws1, isJsonWs c = true) → (∀ c ∈ ws2, isJsonWs c = true) →
    (printElemsP d x xs).length + 1 < fuel →
    parseElements fuel acc (ws1 ++ (printElemsP d x xs ++ (ws2 ++ ']' :: rest))) =
      .ok (acc ++ x :: xs, rest) := by
  induction xs with
  | nil =>
    intro x hIH d acc ws1 ws2 rest fuel hws1 hws2 hfuel
    obtain ⟨f, rfl⟩ : ∃ f, fuel = f + 1 := ⟨fuel - 1, by omega⟩
    have hlen : (printVal d x).length < f := by
      simp only [printElemsP] at hfuel
      omega
    have hdelim : NumDelim (ws2 ++ ']' :: rest) :=
      numDelim_ws ws2 hws2 (numDelim_cons (by decide) rest)
    have hv : parseValue f (ws1 ++ (printVal d x ++ (ws2 ++ ']' :: rest))) =
        .ok (x, ws2 ++ ']' :: rest) := by
      rw [parseValue_ws f ws1 _ hws1]
      exact hIH x (List.mem_cons_self x []) d f _ hlen hdelim
    have hsw : skipWs (ws2 ++ ']' :: rest) = ']' :: rest := by
      rw [skipWs_all ws2 hws2]
      exact skipWs_nonWs (by intro c hc; simp only [List.head?_cons, Option.mem_def,
        Option.some.injEq] at hc; subst hc; rfl)
    simp only [parseElements, printElemsP, hv, hsw]
    simp
  | cons y ys ih =>
    intro x hIH d acc ws1 ws2 rest fuel hws1 hws2 hfuel
    obtain ⟨f, rfl⟩ : ∃ f, fuel = f + 1 := ⟨fuel - 1, by omega⟩
    have hx1 : 1 ≤ (printVal d x).length := by
      obtain ⟨c, t, h, hv⟩ := printVal_head d x
      rw [h]
      simp
    have hfl := hfuel
    simp only [printElemsP, List.length_append, List.length_cons] at hfl
    have hlen1 : (printVal d x).length < f := by omega
    have hlen2 : (printElemsP d y ys).length + 1 < f := by omega
    have hdelim : NumDelim (',' :: '\n' :: (mkIndent d ++
        (printElemsP d y ys ++ (ws2 ++ ']' :: rest)))) :=
      numDelim_cons (by decide) _
    have hv : parseValue f (ws1 ++ (printVal d x ++ (',' :: '\n' :: (mkIndent d ++
        (printElemsP d y ys ++ (ws2 ++ ']' :: rest)))))) =
        .ok (x, ',' :: '\n' :: (mkIndent d ++
          (printElemsP d y ys ++ (ws2 ++ ']' :: rest)))) := by
      rw [parseValue_ws f ws1 _ hws1]
      exact hIH x (List.mem_cons_self x _) d f _ hlen1 hdelim
    have hsw : skipWs (',' :: '\n' :: (mkIndent d ++
        (printElemsP d y ys ++ (ws2 ++ ']' :: rest)))) =
        ',' :: '\n' :: (mkIndent d ++ (printElemsP d y ys ++ (ws2 ++ ']' :: rest))) :=
      skipWs_nonWs (by intro c hc; simp only [List.head?_cons, Option.mem_def,
        Option.some.injEq] at hc; subst hc; rfl)
    have hrec := ih y (fun v hv => hIH v (List.mem_cons_of_mem x hv)) d (acc ++ [x])
      ('\n' :: mkIndent d) ws2 rest f
      (by
        intro c hc
        simp only [List.mem_cons] at hc
        rcases hc with rfl | hc
        · rfl
        · exact mkIndent_ws d c hc)
      hws2 hlen2
    simp only [List.cons_append, List.append_assoc] at hrec
    simp only [parseElements, printElemsP, List.cons_append, List.append_assoc, hv, hsw,
      eq_self_iff_true, if_true]
    rw [hrec]
    simp

theorem skipWs_cons_nonws (c : Char) (h : isJsonWs c = false) (t : List Char) :
    skipWs (c :: t) = c :: t := by
  simp [skipWs, h]

theorem nodup_key_not_mem {acc tail : List (String × Json)} {k : String} {w : Json}
    (h : ((acc ++ (k, w) :: tail).map Prod.fst).Nodup) : k ∉ acc.map Prod.fst := by
  intro hmem
  rw [List.map_append, List.nodup_append] at h
  exact h.2.2 hmem (by simp)

/-- Parsing the printed members of a non-empty object recovers the members. -/
theorem parseMembers_print (fs : List (String × Json)) : ∀ (k : String) (w : Json),
    (∀ p ∈ (k, w) :: fs, L1Prop p.2) →
    ∀ (d : ℕ) (acc : List (String × Json)) (ws1 ws2 rest : List Char) (fuel : ℕ),
    (∀ c ∈ ws1, isJsonWs c = true) → (∀ c ∈ ws2, isJsonWs c = true) →
    ((acc ++ (k, w) :: fs).map Prod.fst).Nodup →
    (printFieldsP d (k, w) fs).length + 1 < fuel →
    parseMembers fuel acc (ws1 ++ (printFieldsP d (k, w) fs ++ (ws2 ++ '\x7d' :: rest))) =
      .ok (acc ++ (k, w) :: fs, rest) := by
  induction fs with
  | nil =>
    intro k w hIH d acc ws1 ws2 rest fuel hws1 hws2 hnodup hfuel
    obtain ⟨f, rfl⟩ : ∃ f, fuel = f + 1 := ⟨fuel - 1, by omega⟩
    have hfl := hfuel
    simp only [printFieldsP, quoteString, List.length_append, List.length_cons] at hfl
    have hlen1 : (printVal d w).length < f := by omega
    have hk : k ∉ acc.map Prod.fst := nodup_key_not_mem hnodup
    have hsw0 : skipWs (ws1 ++ '"' :: (escList k.data ++ '"' ::
        (':' :: ' ' :: (printVal d w ++ (ws2 ++ '\x7d' :: rest))))) =
        '"' :: (escList k.data ++ '"' ::
          (':' :: ' ' :: (printVal d w ++ (ws2 ++ '\x7d' :: rest)))) := by
      rw [skipWs_all ws1 hws1]
      exact skipWs_cons_nonws '"' rfl _
    have hstr : parseStringRest ((escList k.data ++ '"' ::
        (':' :: ' ' :: (printVal d w ++ (ws2 ++ '\x7d' :: rest)))).length + 1) []
        (escList k.data ++ '"' :: (':' :: ' ' :: (printVal d w ++ (ws2 ++ '\x7d' :: rest)))) =
        .ok (k, ':' :: ' ' :: (printVal d w ++ (ws2 ++ '\x7d' :: rest))) := by
      have h0 := parseStringRest_print k.data []
        (':' :: ' ' :: (printVal d w ++ (ws2 ++ '\x7d' :: rest)))
        ((escList k.data ++ '"' ::
          (':' :: ' ' :: (printVal d w ++ (ws2 ++ '\x7d' :: rest)))).length + 1)
        (by simp only [List.length_append, List.length_cons]; omega)
      simpa only [List.reverse_nil, List.nil_append] using h0
    have hsw2 : skipWs (':' :: ' ' :: (printVal d w ++ (ws2 ++ '\x7d' :: rest))) =
        ':' :: ' ' :: (printVal d w ++ (ws2 ++ '\x7d' :: rest)) :=
      skipWs_cons_nonws ':' rfl _
    have hdelim : NumDelim (ws2 ++ '\x7d' :: rest) :=
      numDelim_ws ws2 hws2 (numDelim_cons (by decide) rest)
    have hval : parseValue f (' ' :: (printVal d w ++ (ws2 ++ '\x7d' :: rest))) =
        .ok (w, ws2 ++ '\x7d' :: rest) := by
      have hdec : (' ' :: (printVal d w ++ (ws2 ++ '\x7d' :: rest))) =
          [' '] ++ (printVal d w ++ (ws2 ++ '\x7d' :: rest)) := rfl
      rw [hdec, parseValue_ws f [' '] _ (by
        intro c hc
        simp only [List.mem_singleton] at hc
        subst hc
        rfl)]
      exact hIH (k, w) (List.mem_cons_self _ _) d f _ hlen1 hdelim
    have hsw3 : skipWs (ws2 ++ '\x7d' :: rest) = '\x7d' :: rest := by
      rw [skipWs_all ws2 hws2]
      exact skipWs_cons_nonws '\x7d' rfl _
    simp only [parseMembers, printFieldsP, quoteString, List.cons_append,
      List.append_assoc, List.nil_append, hsw0, hstr, hsw2, hval, hsw3,
      eq_self_iff_true, if_true]
    simp [insertField_append w hk]
  | cons g gs ih =>
    obtain ⟨gk, gw⟩ := g
    intro k w hIH d acc ws1 ws2 rest fuel hws1 hws2 hnodup hfuel
    obtain ⟨f, rfl⟩ : ∃ f, fuel = f + 1 := ⟨fuel - 1, by omega⟩
    have hfl := hfuel
    simp only [printFieldsP, quoteString, List.length_append, List.length_cons] at hfl
    have hlen1 : (printVal d w).length < f := by omega
    have hlen2 : (printFieldsP d (gk, gw) gs).length + 1 < f := by omega
    have hk : k ∉ acc.map Prod.fst := nodup_key_not_mem hnodup
    have hsw0 : skipWs (ws1 ++ '"' :: (escList k.data ++ '"' ::
        (':' :: ' ' :: (printVal d w ++ (',' :: '\n' :: (mkIndent d ++
          (printFieldsP d (gk, gw) gs ++ (ws2 ++ '\x7d' :: rest)))))))) =
        '"' :: (escList k.data ++ '"' ::
          (':' :: ' ' :: (printVal d w ++ (',' :: '\n' :: (mkIndent d ++
            (printFieldsP d (gk, gw) gs ++ (ws2 ++ '\x7d' :: rest))))))) := by
      rw [skipWs_all ws1 hws1]
      exact skipWs_cons_nonws '"' rfl _
    have hstr : parseStringRest ((escList k.data ++ '"' ::
        (':' :: ' ' :: (printVal d w ++ (',' :: '\n' :: (mkIndent d ++
          (printFieldsP d (gk, gw) gs ++ (ws2 ++ '\x7d' :: rest))))))).length + 1) []
        (escList k.data ++ '"' :: (':' :: ' ' :: (printVal d w ++ (',' :: '\n' ::
          (mkIndent d ++ (printFieldsP d (gk, gw) gs ++ (ws2 ++ '\x7d' :: rest))))))) =
        .ok (k, ':' :: ' ' :: (printVal d w ++ (',' :: '\n' :: (mkIndent d ++
          (printFieldsP d (gk, gw) gs ++ (ws2 ++ '\x7d' :: rest)))))) := by
      have h0 := parseStringRest_print k.data []
        (':' :: ' ' :: (printVal d w ++ (',' :: '\n' :: (mkIndent d ++
          (printFieldsP d (gk, gw) gs ++ (ws2 ++ '\x7d' :: rest))))))
        ((escList k.data ++ '"' :: (':' :: ' ' :: (printVal d w ++ (',' :: '\n' ::
          (mkIndent d ++ (printFieldsP d (gk, gw) gs ++
            (ws2 ++ '\x7d' :: rest))))))).length + 1)
        (by simp only [List.length_append, List.length_cons]; omega)
      simpa only [List.reverse_nil, List.nil_append] using h0
    have hsw2 : skipWs (':' :: ' ' :: (printVal d w ++ (',' :: '\n' :: (mkIndent d ++
        (printFieldsP d (gk, gw) gs ++ (ws2 ++ '\x7d' :: rest)))))) =
        ':' :: ' ' :: (printVal d w ++ (',' :: '\n' :: (mkIndent d ++
          (printFieldsP d (gk, gw) gs ++ (ws2 ++ '\x7d' :: rest))))) :=
      skipWs_cons_nonws ':' rfl _
    have hdelim : NumDelim (',' :: '\n' :: (mkIndent d ++
        (printFieldsP d (gk, gw) gs ++ (ws2 ++ '\x7d' :: rest)))) :=
      numDelim_cons (by decide) _
    have hval : parseValue f (' ' :: (printVal d w ++ (',' :: '\n' :: (mkIndent d ++
        (printFieldsP d (gk, gw) gs ++ (ws2 ++ '\x7d' :: rest)))))) =
        .ok (w, ',' :: '\n' :: (mkIndent d ++
          (printFieldsP d (gk, gw) gs ++ (ws2 ++ '\x7d' :: rest)))) := by
      have hdec : (' ' :: (printVal d w ++ (',' :: '\n' :: (mkIndent d ++
          (printFieldsP d (gk, gw) gs ++ (ws2 ++ '\x7d' :: rest)))))) =
          [' '] ++ (printVal d w ++ (',' :: '\n' :: (mkIndent d ++
            (printFieldsP d (gk, gw) gs ++ (ws2 ++ '\x7d' :: rest))))) := rfl
      rw [hdec, parseValue_ws f [' '] _ (by
        intro c hc
        simp only [List.mem_singleton] at hc
        subst hc
        rfl)]
      exact hIH (k, w) (List.mem_cons_self _ _) d f _ hlen1 hdelim
    have hsw3 : skipWs (',' :: '\n' :: (mkIndent d ++
        (printFieldsP d (gk, gw) gs ++ (ws2 ++ '\x7d' :: rest)))) =
        ',' :: '\n' :: (mkIndent d ++
          (printFieldsP d (gk, gw) gs ++ (ws2 ++ '\x7d' :: rest))) :=
      skipWs_cons_nonws ',' rfl _
    have hnodup2 : (((acc ++ [(k, w)]) ++ (gk, gw) :: gs).map Prod.fst).Nodup := by
      have heq : (acc ++ [(k, w)]) ++ (gk, gw) :: gs = acc ++ (k, w) :: (gk, gw) :: gs := by
        simp
      rw [heq]
      exact hnodup
    have hrec := ih gk gw (fun p hp => hIH p (List.mem_cons_of_mem _ hp)) d
      (acc ++ [(k, w)]) ('\n' :: mkIndent d) ws2 rest f
      (by
        intro c hc
        simp only [List.mem_cons] at hc
        rcases hc with rfl | hc
        · rfl
        · exact mkIndent_ws d c hc)
      hws2 hnodup2 hlen2
    simp only [List.cons_append, List.append_assoc] at hrec
    simp only [parseMembers, printFieldsP, quoteString, List.cons_append,
      List.append_assoc, List.nil_append, hsw0, hstr, hsw2, hval, hsw3,
      eq_self_iff_true, if_true]
    rw [insertField_append w hk, hrec]
    simp

/-! #### Every parser success yields a well-formed value -/

theorem parseExpPart_decden {neg : Bool} {ids fds cs : List Char} {q : ℚ}
    {rest : List Char} (h : parseExpPart neg ids fds cs = .ok (q, rest)) : DecDen q := by
  simp only [parseExpPart] at h
  repeat' split at h
  all_goals first
    | exact Except.noConfusion h
    | (simp only [Except.ok.injEq, Prod.mk.injEq] at h
       obtain ⟨hq, -⟩ := h
       exact hq ▸ mkNumber_decden _ _ _ _ _)

theorem parseNumTail_decden {neg : Bool} {ids fds cs : List Char} {q : ℚ}
    {rest : List Char} (h : parseNumTail neg ids fds cs = .ok (q, rest)) : DecDen q := by
  simp only [parseNumTail] at h
  repeat' split at h
  all_goals first
    | exact Except.noConfusion h
    | exact parseExpPart_decden h
    | (simp only [Except.ok.injEq, Prod.mk.injEq] at h
       obtain ⟨hq, -⟩ := h
       exact hq ▸ mkNumber_decden _ _ _ _ _)

theorem parseNumberCore_decden {neg : Bool} {cs : List Char} {q : ℚ}
    {rest : List Char} (h : parseNumberCore neg cs = .ok (q, rest)) : DecDen q := by
  simp only [parseNumberCore] at h
  repeat' split at h
  all_goals first
    | exact Except.noConfusion h
    | exact parseNumTail_decden h

theorem parseNumber_decden {cs : List Char} {q : ℚ} {rest : List Char}
    (h : parseNumber cs = .ok (q, rest)) : DecDen q := by
  simp only [parseNumber] at h
  repeat' split at h
  all_goals first
    | exact Except.noConfusion h
    | exact parseNumberCore_decden h

/-- Well-formedness of a member list: distinct keys, well-formed values. -/
def FieldsWfNd (fs : List (String × Json)) : Prop :=
  (fs.map Prod.fst).Nodup ∧ ∀ p ∈ fs, Wf p.2

theorem insertField_wfnd {acc : List (String × Json)} {k : String} {v : Json}
    (hacc : FieldsWfNd acc) (hv : Wf v) : FieldsWfNd (insertField acc k v) := by
  unfold insertField
  by_cases hmem : acc.any (fun p => p.1 = k) = true
  · rw [if_pos hmem]
    constructor
    · have hkeys : (acc.map (fun p => if p.1 = k then (k, v) else p)).map Prod.fst =
          acc.map Prod.fst := by
        rw [List.map_map]
        apply List.map_congr_left
        intro p _
        by_cases hp : p.1 = k
        · simp [hp]
        · simp [hp]
      rw [hkeys]
      exact hacc.1
    · intro p hp
      rw [List.mem_map] at hp
      obtain ⟨p0, hp0, rfl⟩ := hp
      by_cases hp0k : p0.1 = k
      · rw [if_pos hp0k]
        exact hv
      · rw [if_neg hp0k]
        exact hacc.2 p0 hp0
  · rw [if_neg hmem]
    constructor
    · rw [List.map_append, List.nodup_append]
      refine ⟨hacc.1, by simp, ?_⟩
      intro a ha hb
      simp only [List.map_cons, List.map_nil, List.mem_singleton] at hb
      subst hb
      rw [List.mem_map] at ha
      obtain ⟨p, hp, hpk⟩ := ha
      exact hmem (List.any_eq_true.mpr ⟨p, hp, by simp [hpk]⟩)
    · intro p hp
      rw [List.mem_append] at hp
      rcases hp with hp | hp
      · exact hacc.2 p hp
      · rw [List.mem_singleton] at hp
        subst hp
        exact hv

theorem arrResult_ok {X : Except String (List Json × List Char)} {v : Json}
    {rest : List Char} (h : arrResult X = .ok (v, rest)) :
    ∃ vs, X = .ok (vs, rest) ∧ v = .arr vs := by
  cases X with
  | error e => exact Except.noConfusion h
  | ok p =>
    obtain ⟨vs, r⟩ := p
    simp only [arrResult, Except.ok.injEq, Prod.mk.injEq] at h
    exact ⟨vs, by rw [h.2], h.1.symm⟩

theorem objResult_ok {X : Except String (List (String × Json) × List Char)} {v : Json}
    {rest : List Char} (h : objResult X = .ok (v, rest)) :
    ∃ fs, X = .ok (fs, rest) ∧ v = .obj fs := by
  cases X with
  | error e => exact Except.noConfusion h
  | ok p =>
    obtain ⟨fs, r⟩ := p
    simp only [objResult, Except.ok.injEq, Prod.mk.injEq] at h
    exact ⟨fs, by rw [h.2], h.1.symm⟩

/-- Any value, element list, or member list the parser returns is
well-formed. -/
theorem parse_wf_all : ∀ fuel : ℕ,
    (∀ cs v rest, parseValue fuel cs = .ok (v, rest) → Wf v) ∧
    (∀ acc cs vs rest, (∀ x ∈ acc, Wf x) →
      parseElements fuel acc cs = .ok (vs, rest) → ∀ x ∈ vs, Wf x) ∧
    (∀ acc cs fs rest, FieldsWfNd acc →
      parseMembers fuel acc cs = .ok (fs, rest) → FieldsWfNd fs) := by
  intro fuel
  induction fuel with
  | zero =>
    refine ⟨?_, ?_, ?_⟩
    · intro cs v rest h
      exact Except.noConfusion h
    · intro acc cs vs rest _ h
      exact Except.noConfusion h
    · intro acc cs fs rest _ h
      exact Except.noConfusion h
  | succ f ih =>
    obtain ⟨ihP, ihQ, ihR⟩ := ih
    refine ⟨?_, ?_, ?_⟩
    · intro cs v rest h
      simp only [parseValue] at h
      split at h
      · exact Except.noConfusion h
      · rename_i c rest1 hsw0
        split at h
        · -- literal null
          split at h
          · simp only [Except.ok.injEq, Prod.mk.injEq] at h
            obtain ⟨rfl, rfl⟩ := h
            exact Wf.null
          · exact Except.noConfusion h
        · split at h
          · -- literal true
            split at h
            · simp only [Except.ok.injEq, Prod.mk.injEq] at h
              obtain ⟨rfl, rfl⟩ := h
              exact Wf.bool true
            · exact Except.noConfusion h
          · split at h
            · -- literal false
              split at h
              · simp only [Except.ok.injEq, Prod.mk.injEq] at h
                obtain ⟨rfl, rfl⟩ := h
                exact Wf.bool false
              · exact Except.noConfusion h
            · split at h
              · -- string
                split at h
                · rename_i s r heq
                  simp only [Except.ok.injEq, Prod.mk.injEq] at h
                  obtain ⟨rfl, rfl⟩ := h
                  exact Wf.str s
                · exact Except.noConfusion h
              · split at h
                · -- array
                  split at h
                  · obtain ⟨vs, hx, rfl⟩ := arrResult_ok h
                    exact Wf.arr vs (ihQ [] _ vs rest (by simp) hx)
                  · split at h
                    · simp only [Except.ok.injEq, Prod.mk.injEq] at h
                      obtain ⟨rfl, rfl⟩ := h
                      exact Wf.arr [] (by simp)
                    · obtain ⟨vs, hx, rfl⟩ := arrResult_ok h
                      exact Wf.arr vs (ihQ [] _ vs rest (by simp) hx)
                · split at h
                  · -- object
                    have hempty : FieldsWfNd [] := ⟨by simp, by simp⟩
                    split at h
                    · obtain ⟨fs, hx, rfl⟩ := objResult_ok h
                      obtain ⟨hnd, hvals⟩ := ihR [] _ fs rest hempty hx
                      exact Wf.obj fs hnd hvals
                    · split at h
                      · simp only [Except.ok.injEq, Prod.mk.injEq] at h
                        obtain ⟨rfl, rfl⟩ := h
                        exact Wf.obj [] (by simp) (by simp)
                      · obtain ⟨fs, hx, rfl⟩ := objResult_ok h
                        obtain ⟨hnd, hvals⟩ := ihR [] _ fs rest hempty hx
                        exact Wf.obj fs hnd hvals
                  · split at h
                    · -- number
                      split at h
                      · rename_i q r heq
                        simp only [Except.ok.injEq, Prod.mk.injEq] at h
                        obtain ⟨rfl, rfl⟩ := h
                        exact Wf.num q (parseNumber_decden heq)
                      · exact Except.noConfusion h
                    · exact Except.noConfusion h
    · intro acc cs vs rest hacc h
      simp only [parseElements] at h
      split at h
      · exact Except.noConfusion h
      · rename_i v1 rest1 heq1
        have hv1 : Wf v1 := ihP cs v1 rest1 heq1
        have hext : ∀ x ∈ acc ++ [v1], Wf x := by
          intro x hx
          rw [List.mem_append] at hx
          rcases hx with hx | hx
          · exact hacc x hx
          · rw [List.mem_singleton] at hx
            subst hx
            exact hv1
        split at h
        · exact Except.noConfusion h
        · rename_i c1 r1 hsw1
          split at h
          · exact ihQ (acc ++ [v1]) r1 vs rest hext h
          · split at h
            · simp only [Except.ok.injEq, Prod.mk.injEq] at h
              obtain ⟨rfl, rfl⟩ := h
              exact hext
            · exact Except.noConfusion h
    · intro acc cs fs rest hacc h
      simp only [parseMembers] at h
      split at h
      · exact Except.noConfusion h
      · rename_i c0 rest0 hsw0
        split at h
        · split at h
          · exact Except.noConfusion h
          · rename_i k rest1 heqk
            split at h
            · exact Except.noConfusion h
            · rename_i c1 rest2 hsw2
              split at h
              · split at h
                · exact Except.noConfusion h
                · rename_i v rest3 heqv
                  have hv : Wf v := ihP rest2 v rest3 heqv
                  split at h
                  · exact Except.noConfusion h
                  · rename_i c2 r hsw3
                    split at h
                    · exact ihR (insertField acc k v) r fs rest
                        (insertField_wfnd hacc hv) h
                    · split at h
                      · simp only [Except.ok.injEq, Prod.mk.injEq] at h
                        obtain ⟨rfl, rfl⟩ := h
                        exact insertField_wfnd hacc hv
                      · exact Except.noConfusion h
              · exact Except.noConfusion h
        · exact Except.noConfusion h

/-- Everything `parseJson` accepts is well-formed. -/
theorem parseJson_wf {s : String} {v : Json} (h : parseJson s = .ok v) : Wf v := by
  unfold parseJson at h
  split at h
  · exact Except.noConfusion h
  · rename_i v1 rest heq
    split at h
    · simp only [Except.ok.injEq] at h
      subst h
      exact (parse_wf_all (s.length + 1)).1 s.data v1 rest heq
    · exact Except.noConfusion h

/-- Parsing the printed form of a well-formed value recovers the value. -/
theorem printVal_roundtrip (v : Json) : Wf v → L1Prop v := by
  induction v using json_induction with
  | hnull =>
    intro _ d fuel rest hfuel hdelim
    obtain ⟨f, rfl⟩ : ∃ f, fuel = f + 1 := ⟨fuel - 1, by omega⟩
    rw [show printVal d Json.null = ['n', 'u', 'l', 'l'] from by simp only [printVal]]
    rfl
  | hbool b =>
    intro _ d fuel rest hfuel hdelim
    obtain ⟨f, rfl⟩ : ∃ f, fuel = f + 1 := ⟨fuel - 1, by omega⟩
    cases b with
    | true =>
      rw [show printVal d (Json.bool true) = ['t', 'r', 'u', 'e'] from by
        simp only [printVal]]
      rfl
    | false =>
      rw [show printVal d (Json.bool false) = ['f', 'a', 'l', 's', 'e'] from by
        simp only [printVal]]
      rfl
  | hnum q =>
    intro hwf d fuel rest hfuel hdelim
    obtain ⟨f, rfl⟩ : ∃ f, fuel = f + 1 := ⟨fuel - 1, by omega⟩
    have hdec : DecDen q := by
      cases hwf with
      | num _ h => exact h
    obtain ⟨c, t, hct, hd⟩ := numChars_head q
    have hvh : ValueHead c := by
      rcases hd with rfl | hd
      · exact Or.inr (Or.inr (Or.inr (Or.inr (Or.inr (Or.inr (Or.inl rfl))))))
      · exact Or.inr (Or.inr (Or.inr (Or.inr (Or.inr (Or.inr (Or.inr hd))))))
    have hne : ¬c = 'n' ∧ ¬c = 't' ∧ ¬c = 'f' ∧ ¬c = '"' ∧ ¬c = '[' ∧ ¬c = '\x7b' := by
      rcases hd with rfl | hd
      · exact ⟨by decide, by decide, by decide, by decide, by decide, by decide⟩
      · exact ⟨fun h => absurd hd (by rw [h]; decide),
          fun h => absurd hd (by rw [h]; decide),
          fun h => absurd hd (by rw [h]; decide),
          fun h => absurd hd (by rw [h]; decide),
          fun h => absurd hd (by rw [h]; decide),
          fun h => absurd hd (by rw [h]; decide)⟩
    have hpv : printVal d (Json.num q) = numChars q := by simp only [printVal]
    rw [hpv, show numChars q ++ rest = c :: (t ++ rest) from by
      rw [hct, List.cons_append]]
    simp only [parseValue, skipWs_cons_nonws c (valueHead_not_ws hvh),
      if_neg hne.1, if_neg hne.2.1, if_neg hne.2.2.1, if_neg hne.2.2.2.1,
      if_neg hne.2.2.2.2.1, if_neg hne.2.2.2.2.2]
    have hor : c = '-' ∨ c.isDigit = true := hd
    rw [if_pos hor, show c :: (t ++ rest) = numChars q ++ rest from by
      rw [hct, List.cons_append], parseNumber_numChars hdec rest hdelim]
  | hstr s =>
    intro _ d fuel rest hfuel hdelim
    obtain ⟨f, rfl⟩ : ∃ f, fuel = f + 1 := ⟨fuel - 1, by omega⟩
    have hstr : parseStringRest ((escList s.data ++ '"' :: rest).length + 1) []
        (escList s.data ++ '"' :: rest) = .ok (s, rest) := by
      have h0 := parseStringRest_print s.data [] rest
        ((escList s.data ++ '"' :: rest).length + 1)
        (by simp only [List.length_append, List.length_cons]; omega)
      simpa only [List.reverse_nil, List.nil_append] using h0
    rw [show printVal d (Json.str s) ++ rest =
        '"' :: (escList s.data ++ '"' :: rest) from by
      simp only [printVal, quoteString, List.cons_append, List.append_assoc,
        List.singleton_append, List.nil_append]]
    simp only [parseValue, skipWs_cons_nonws '"' rfl,
      if_neg (by decide : ¬('"' : Char) = 'n'), if_neg (by decide : ¬('"' : Char) = 't'),
      if_neg (by decide : ¬('"' : Char) = 'f'), eq_self_iff_true, if_true, hstr]
  | harr xs hIH =>
    intro hwf d fuel rest hfuel hdelim
    obtain ⟨f, rfl⟩ : ∃ f, fuel = f + 1 := ⟨fuel - 1, by omega⟩
    have helems : ∀ x ∈ xs, Wf x := by
      cases hwf with
      | arr _ h => exact h
    cases xs with
    | nil =>
      rw [show printVal d (Json.arr []) = ['[', ']'] from by simp only [printVal]]
      rfl
    | cons x xs =>
      have hL : ∀ v ∈ x :: xs, L1Prop v := fun v hv => hIH v hv (helems v hv)
      have hfl := hfuel
      simp only [printVal, List.length_append, List.length_cons] at hfl
      have hlen : (printElemsP (d + 1) x xs).length + 1 < f := by omega
      obtain ⟨c0, t0, hpe, hvh⟩ := printElemsP_head (d + 1) x xs
      have hsw1 : skipWs ('\n' :: (mkIndent (d + 1) ++ (printElemsP (d + 1) x xs ++
          ('\n' :: (mkIndent d ++ (']' :: rest)))))) =
          c0 :: (t0 ++ ('\n' :: (mkIndent d ++ (']' :: rest)))) := by
        rw [show ('\n' :: (mkIndent (d + 1) ++ (printElemsP (d + 1) x xs ++
            ('\n' :: (mkIndent d ++ (']' :: rest)))))) =
            ('\n' :: mkIndent (d + 1)) ++ (printElemsP (d + 1) x xs ++
              ('\n' :: (mkIndent d ++ (']' :: rest)))) from by
          simp [List.cons_append]]
        rw [skipWs_all ('\n' :: mkIndent (d + 1)) (by
          intro c hc
          simp only [List.mem_cons] at hc
          rcases hc with rfl | hc
          · rfl
          · exact mkIndent_ws _ c hc)]
        rw [show printElemsP (d + 1) x xs ++ ('\n' :: (mkIndent d ++ (']' :: rest))) =
            c0 :: (t0 ++ ('\n' :: (mkIndent d ++ (']' :: rest)))) from by
          rw [hpe, List.cons_append]]
        exact skipWs_cons_nonws c0 (valueHead_not_ws hvh) _
      have hrec := parseElements_print xs x hL (d + 1) [] ('\n' :: mkIndent (d + 1))
        ('\n' :: mkIndent d) rest f
        (by
          intro c hc
          simp only [List.mem_cons] at hc
          rcases hc with rfl | hc
          · rfl
          · exact mkIndent_ws _ c hc)
        (by
          intro c hc
          simp only [List.mem_cons] at hc
          rcases hc with rfl | hc
          · rfl
          · exact mkIndent_ws _ c hc)
        hlen
      simp only [List.cons_append, List.append_assoc, List.nil_append] at hrec
      rw [show printVal d (Json.arr (x :: xs)) ++ rest =
          '[' :: ('\n' :: (mkIndent (d + 1) ++ (printElemsP (d + 1) x xs ++
            ('\n' :: (mkIndent d ++ (']' :: rest)))))) from by
        simp only [printVal, List.cons_append, List.append_assoc,
          List.singleton_append, List.nil_append]]
      simp only [parseValue, skipWs_cons_nonws '[' rfl,
        if_neg (by decide : ¬('[' : Char) = 'n'), if_neg (by decide : ¬('[' : Char) = 't'),
        if_neg (by decide : ¬('[' : Char) = 'f'), if_neg (by decide : ¬('[' : Char) = '"'),
        eq_self_iff_true, if_true, hsw1, if_neg (valueHead_ne_close hvh).1, hrec]
      rfl
  | hobj fs hIH =>
    intro hwf d fuel rest hfuel hdelim
    obtain ⟨f, rfl⟩ : ∃ f, fuel = f + 1 := ⟨fuel - 1, by omega⟩
    have hnd : (fs.map Prod.fst).Nodup := by
      cases hwf with
      | obj _ h _ => exact h
    have helems : ∀ p ∈ fs, Wf p.2 := by
      cases hwf with
      | obj _ _ h => exact h
    cases fs with
    | nil =>
      rw [show printVal d (Json.obj []) = ['\x7b', '\x7d'] from by simp only [printVal]]
      rfl
    | cons f0 fs =>
      obtain ⟨k, w⟩ := f0
      have hL : ∀ p ∈ (k, w) :: fs, L1Prop p.2 := fun p hp => hIH p hp (helems p hp)
      have hfl := hfuel
      simp only [printVal, List.length_append, List.length_cons] at hfl
      have hlen : (printFieldsP (d + 1) (k, w) fs).length + 1 < f := by omega
      obtain ⟨t0, hpf⟩ := printFieldsP_head (d + 1) (k, w) fs
      have hsw1 : skipWs ('\n' :: (mkIndent (d + 1) ++ (printFieldsP (d + 1) (k, w) fs ++
          ('\n' :: (mkIndent d ++ ('\x7d' :: rest)))))) =
          '"' :: (t0 ++ ('\n' :: (mkIndent d ++ ('\x7d' :: rest)))) := by
        rw [show ('\n' :: (mkIndent (d + 1) ++ (printFieldsP (d + 1) (k, w) fs ++
            ('\n' :: (mkIndent d ++ ('\x7d' :: rest)))))) =
            ('\n' :: mkIndent (d + 1)) ++ (printFieldsP (d + 1) (k, w) fs ++
              ('\n' :: (mkIndent d ++ ('\x7d' :: rest)))) from by
          simp [List.cons_append]]
        rw [skipWs_all ('\n' :: mkIndent (d + 1)) (by
          intro c hc
          simp only [List.mem_cons] at hc
          rcases hc with rfl | hc
          · rfl
          · exact mkIndent_ws _ c hc)]
        rw [show printFieldsP (d + 1) (k, w) fs ++ ('\n' :: (mkIndent d ++
            ('\x7d' :: rest))) =
            '"' :: (t0 ++ ('\n' :: (mkIndent d ++ ('\x7d' :: rest)))) from by
          rw [hpf, List.cons_append]]
        exact skipWs_cons_nonws '"' rfl _
      have hrec := parseMembers_print fs k w hL (d + 1) [] ('\n' :: mkIndent (d + 1))
        ('\n' :: mkIndent d) rest f
        (by
          intro c hc
          simp only [List.mem_cons] at hc
          rcases hc with rfl | hc
          · rfl
          · exact mkIndent_ws _ c hc)
        (by
          intro c hc
          simp only [List.mem_cons] at hc
          rcases hc with rfl | hc
          · rfl
          · exact mkIndent_ws _ c hc)
        (by simpa using hnd)
        hlen
      simp only [List.cons_append, List.append_assoc, List.nil_append] at hrec
      rw [show printVal d (Json.obj ((k, w) :: fs)) ++ rest =
          '\x7b' :: ('\n' :: (mkIndent (d + 1) ++ (printFieldsP (d + 1) (k, w) fs ++
            ('\n' :: (mkIndent d ++ ('\x7d' :: rest)))))) from by
        simp only [printVal, List.cons_append, List.append_assoc,
          List.singleton_append, List.nil_append]]
      simp only [parseValue, skipWs_cons_nonws '\x7b' rfl,
        if_neg (by decide : ¬('\x7b' : Char) = 'n'),
        if_neg (by decide : ¬('\x7b' : Char) = 't'),
        if_neg (by decide : ¬('\x7b' : Char) = 'f'),
        if_neg (by decide : ¬('\x7b' : Char) = '"'),
        if_neg (by decide : ¬('\x7b' : Char) = '['),
        eq_self_iff_true, if_true, hsw1,
        if_neg (by decide : ¬('"' : Char) = '\x7d'), hrec]
      rfl

/-- Parsing the full `stringify` output of a well-formed value recovers it. -/
theorem parse_stringify (v : Json) (hwf : Wf v) : parseJson (stringify v) = .ok v := by
  unfold parseJson stringify
  have h1 : parseValue ((printVal 0 v).length + 1) (printVal 0 v ++ []) = .ok (v, []) :=
    printVal_roundtrip v hwf 0 ((printVal 0 v).length + 1) [] (by omega) numDelim_nil
  rw [List.append_nil] at h1
  have hdata : (String.mk (printVal 0 v)).data = printVal 0 v := rfl
  have hlen : (String.mk (printVal 0 v)).length = (printVal 0 v).length := rfl
  rw [hdata, hlen, h1]
  rfl

/-- C1: when the stream completes without cancellation and the cleaned
accumulated buffer parses as JSON, `translate` resolves to that value
re-serialized with 2-space indentation, and the returned string parses back
to exactly the value the cleaned buffer parsed to. -/
theorem stream_success_roundtrip (text : String) (inp : CallInputs)
    (st : ℕ) (frags : List String) (v : Json)
    (hkey : jsFalsy inp.apiKey = false) (hurl : jsFalsy inp.apiUrl = false)
    (hf : inp.fetchOutcome = .response st (some ⟨frags, none⟩))
    (hst : 200 ≤ st ∧ st < 300)
    (hnp : inp.abortedAtParse = false) (hnc : inp.abortedAtCatch = false)
    (hp : parseJson (cleanJsonString (accumContent frags)) = .ok v) :
    (translateModel text inp).result = .resolved (stringify v) ∧
      parseJson (stringify v) = .ok v := by
  constructor
  · have hfull := runStream_fullContent ((text.length : ℚ) / 4) frags
    simp [translateModel, tryBody, hf, hkey, hurl, hst, hfull, hp]
  · exact parse_stringify v (parseJson_wf hp)

/-- C1 witness: one well-formed event line carrying the delta `"[]"`; the
call resolves to the 2-space re-serialization and it parses back. -/
theorem stream_success_roundtrip_witness :
    (translateModel "x"
        ⟨some "u", some "k",
          .response 200 (some
            ⟨["data: \x7b\"choices\":[\x7b\"delta\":\x7b\"content\":\"[]\"\x7d\x7d]\x7d"],
             none⟩),
          false, false⟩).result = .resolved (stringify (Json.arr [])) ∧
      parseJson (stringify (Json.arr [])) = .ok (Json.arr []) :=
  stream_success_roundtrip "x"
    ⟨some "u", some "k",
      .response 200 (some
        ⟨["data: \x7b\"choices\":[\x7b\"delta\":\x7b\"content\":\"[]\"\x7d\x7d]\x7d"],
         none⟩),
      false, false⟩
    200 ["data: \x7b\"choices\":[\x7b\"delta\":\x7b\"content\":\"[]\"\x7d\x7d]\x7d"]
    (Json.arr []) rfl rfl rfl (by decide) rfl rfl rfl

end OpenAiTranslate
